import Mathlib

/-!
Verification of the 8-puzzle search engine (`solucao.py`).

The Python module implements:
  * `Nodo` — search nodes (state, parent, action, path cost) with
    equality/hash by state only and `<` by cost;
  * `sucessor` — the successor generator of the 8-puzzle;
  * `expande` — node expansion (a Python `set` of child nodes);
  * `hamming_heuristica`, `manhattan_heuristica` — the two heuristics;
  * `astar_hamming`, `astar_manhattan` — A* searches using the heapq
    priority queue and an explored set;
  * `bfs`, `dfs`, `astar_new_heuristic` — optional stubs that only
    `raise NotImplementedError`.

States are Python strings of length 9; we embed them as `List Char`.
Python `int` values occurring here (costs, heuristic values, heap keys)
are all non-negative, and are embedded as `ℕ`; string indices coming from
`str.rfind` can be `-1` and are embedded as `ℤ` with Python's floor
division and modulo.  Python operations that would raise `IndexError` /
`ValueError` on malformed states (indexing out of range, `str.index` on a
missing character) are embedded as total functions that return the input
unchanged / a default; every claim below only evaluates them on inputs
where the Python code does not raise, and the embedding agrees with the
Python semantics on all such inputs.
-/

set_option maxHeartbeats 1000000
set_option linter.unusedVariables false

/-- The goal state `"12345678_"` (constant `objetivo` in every search routine). -/
def objetivo : List Char := ['1', '2', '3', '4', '5', '6', '7', '8', '_']

/-- Read a character of a state, `estado[i]` for `0 ≤ i`.  Python raises
`IndexError` when `i` is out of range; we return `' '` (a character that never
occurs in any puzzle string) in that case. -/
def nth (l : List Char) (i : ℕ) : Char := l.getD i ' '

/-- Python `str.rfind`: highest index at which `c` occurs in `l`, or `-1`
if `c` does not occur. -/
def rfind (l : List Char) (c : Char) : ℤ :=
  match l.reverse.findIdx? (· == c) with
  | some k => (l.length : ℤ) - 1 - (k : ℤ)
  | none => -1

/-- Python list indexing semantics: a negative index `i` means `i + len`;
the result is `none` (Python: `IndexError`) when out of range. -/
def pyIdx (n : ℕ) (i : ℤ) : Option ℕ :=
  let j : ℤ := if i < 0 then i + n else i
  if 0 ≤ j ∧ j < n then some j.toNat else none

/-- The auxiliary `trocar` of `sucessor`: swap the characters at (Python)
indices `i` and `j`.  On indices where Python would raise `IndexError`
(never the case in any claim) we return the state unchanged. -/
def trocar (estado : List Char) (i j : ℤ) : List Char :=
  match pyIdx estado.length i, pyIdx estado.length j with
  | some a, some b => (estado.set a (nth estado b)).set b (nth estado a)
  | _, _ => estado

/-- `sucessor(estado)`: the list of `(ação, novo_estado)` pairs, built in the
source order esquerda / direita / acima / abaixo, each guarded by its grid
boundary condition.  (The Python annotation says `Set`, but the function
builds and returns a `list`.) -/
def sucessor (estado : List Char) : List (String × List Char) :=
  let espacoVazio : ℤ := rfind estado '_'
  let linha : ℤ := espacoVazio.fdiv 3
  let coluna : ℤ := espacoVazio.emod 3
  (if 0 < coluna then [("esquerda", trocar estado espacoVazio (espacoVazio - 1))] else []) ++
  (if coluna < 2 then [("direita", trocar estado espacoVazio (espacoVazio + 1))] else []) ++
  (if 0 < linha then [("acima", trocar estado espacoVazio (espacoVazio - 3))] else []) ++
  (if linha < 2 then [("abaixo", trocar estado espacoVazio (espacoVazio + 3))] else [])

/-- The `Nodo` class: state, optional parent, optional action, path cost.
The Python class also initializes `self.filhos = []`, a list that no code in
the module ever reads or appends to; it is omitted here.  `custo` is a Python
`int` that is only ever `0` or `parent.custo + 1`, hence `ℕ`. -/
inductive Nodo where
  | mk (estado : List Char) (pai : Option Nodo) (acao : Option String) (custo : ℕ)

/-- Field accessor: `nodo.estado`. -/
def Nodo.estado : Nodo → List Char
  | .mk e _ _ _ => e

/-- Field accessor: `nodo.pai`. -/
def Nodo.pai : Nodo → Option Nodo
  | .mk _ p _ _ => p

/-- Field accessor: `nodo.acao`. -/
def Nodo.acao : Nodo → Option String
  | .mk _ _ a _ => a

/-- Field accessor: `nodo.custo`. -/
def Nodo.custo : Nodo → ℕ
  | .mk _ _ _ c => c

instance : Inhabited Nodo := ⟨.mk [] none none 0⟩

/-- `Nodo.__eq__`: equality of nodes is equality of their states.  (The
`isinstance` guard of the Python method concerns comparisons with non-`Nodo`
values, which the typed embedding cannot express.) -/
def nodoEq (n other : Nodo) : Bool := n.estado == other.estado

/-- `Nodo.__ne__`: negation of `__eq__`. -/
def nodoNe (n other : Nodo) : Bool := !(nodoEq n other)

/-- `Nodo.__lt__`: comparison by path cost, used by the priority queue. -/
def nodoLt (n other : Nodo) : Bool := n.custo < other.custo

/-- `Nodo.__hash__` returns `hash(self.estado)`; the hash function on Python
strings itself (randomized SipHash) is abstracted as a parameter. -/
def nodoHash (hashStr : List Char → ℤ) (n : Nodo) : ℤ := hashStr n.estado

/-- `expande(nodo)`: one child per `(ação, estado)` pair of
`sucessor(nodo.estado)`, collected into a Python `set`.  Since `Nodo.__eq__`
and `__hash__` are by state, `set.add` drops a child whose state equals that
of an already-added child; we model the set as a list in insertion order
(Python set iteration order is unspecified; every theorem below about the
search routines holds for any iteration order). -/
def expandePasso (nodo : Nodo) (nodos_sucessores : List Nodo) (p : String × List Char) :
    List Nodo :=
  let novo_nodo : Nodo := .mk p.2 (some nodo) (some p.1) (nodo.custo + 1)
  if nodos_sucessores.any (fun m => nodoEq m novo_nodo) then nodos_sucessores
  else nodos_sucessores ++ [novo_nodo]

def expande (nodo : Nodo) : List Nodo :=
  (sucessor nodo.estado).foldl (expandePasso nodo) []

/-- `hamming_heuristica(estado)`: the number of positions `i < 9` with
`estado[i] != objetivo[i] and estado[i] != '_'`. -/
def hamming_heuristica (estado : List Char) : ℕ :=
  (List.range 9).foldl
    (fun distancia i =>
      if nth estado i ≠ nth objetivo i ∧ nth estado i ≠ '_' then distancia + 1
      else distancia)
    0

/-- `manhattan_heuristica(estado)`: sum over the non-blank positions `i < 9`
of the grid distance between `i` and `objetivo.index(estado[i])`.  Python
`str.index` raises `ValueError` when the character is absent (never the case
on well-formed states); `List.indexOf` returns the length instead. -/
def manhattan_heuristica (estado : List Char) : ℕ :=
  (List.range 9).foldl
    (fun distancia i =>
      if nth estado i ≠ '_' then
        let posicao_correta : ℕ := objetivo.indexOf (nth estado i)
        distancia + ((posicao_correta : ℤ).fdiv 3 - (i : ℤ).fdiv 3).natAbs
          + ((posicao_correta : ℤ).emod 3 - (i : ℤ).emod 3).natAbs
      else distancia)
    0

/-- Python `<` on heap items `(custo_f, nodo)`: tuple comparison compares the
integer keys first and falls back to `Nodo.__lt__` (comparison of costs). -/
def ltEntry (x y : ℕ × Nodo) : Bool :=
  x.1 < y.1 || (x.1 == y.1 && nodoLt x.2 y.2)

/-- CPython `heapq._siftdown(heap, startpos, pos)` (bubble the item at `pos`
up towards `startpos`).  The loop strictly decreases `pos`, so any
`fuel ≥ pos + 1` completes it; callers pass the list length. -/
def siftdownAux : ℕ → List (ℕ × Nodo) → ℕ → ℕ → (ℕ × Nodo) → List (ℕ × Nodo)
  | 0, heap, _, pos, newitem => heap.set pos newitem
  | fuel + 1, heap, startpos, pos, newitem =>
    if startpos < pos then
      let parentpos : ℕ := (pos - 1) / 2
      let parent := heap.getD parentpos default
      if ltEntry newitem parent then
        siftdownAux fuel (heap.set pos parent) startpos parentpos newitem
      else heap.set pos newitem
    else heap.set pos newitem

/-- CPython `heapq.heappush(heap, item)`: append, then sift up. -/
def heappush (heap : List (ℕ × Nodo)) (item : ℕ × Nodo) : List (ℕ × Nodo) :=
  let heap1 := heap ++ [item]
  siftdownAux heap1.length heap1 0 (heap1.length - 1) item

/-- The loop of CPython `heapq._siftup`: walk down from `pos`, moving the
smaller child up, until reaching a position without children; returns the
final list and position.  `childpos` at least doubles each iteration, so
`fuel = endpos` always suffices. -/
def siftupAux : ℕ → List (ℕ × Nodo) → ℕ → ℕ → (List (ℕ × Nodo) × ℕ)
  | 0, heap, pos, _ => (heap, pos)
  | fuel + 1, heap, pos, endpos =>
    let childpos : ℕ := 2 * pos + 1
    if childpos < endpos then
      let rightpos : ℕ := childpos + 1
      let childpos : ℕ :=
        if rightpos < endpos ∧ ¬ ltEntry (heap.getD childpos default) (heap.getD rightpos default)
        then rightpos else childpos
      siftupAux fuel (heap.set pos (heap.getD childpos default)) childpos endpos
    else (heap, pos)

/-- CPython `heapq._siftup(heap, pos)`: sift the item at `pos` down to a
leaf along the smaller-child path, place it there, then `_siftdown` back
towards `pos`. -/
def siftup (heap : List (ℕ × Nodo)) (pos : ℕ) : List (ℕ × Nodo) :=
  let endpos := heap.length
  let newitem := heap.getD pos default
  let walked := siftupAux heap.length heap pos endpos
  siftdownAux heap.length (walked.1.set walked.2 newitem) pos walked.2 newitem

/-- CPython `heapq.heappop(heap)`: pop the last element; if the heap is still
non-empty, move it to the root and sift up, returning the old root.  Returns
`none` on the empty list (Python raises `IndexError`; the searches only pop
under `while fronteira:`). -/
def heappop (heap : List (ℕ × Nodo)) : Option ((ℕ × Nodo) × List (ℕ × Nodo)) :=
  match heap with
  | [] => none
  | x :: xs =>
    let lastelt := (x :: xs).getLast (by simp)
    let rest := (x :: xs).dropLast
    match rest with
    | [] => some (lastelt, [])
    | y :: ys => some (y, siftup ((y :: ys).set 0 lastelt) 0)

/-- Path reconstruction loop shared by both A* routines: walk the parent
chain collecting `acao` labels, then reverse (we build the list directly in
root-to-goal order).  Non-root nodes built by `expande` always have
`acao = some a`; `getD` supplies a dummy for the unreachable `none` case. -/
def reconstruir : Nodo → List String
  | .mk _ none _ _ => []
  | .mk _ (some p) a _ => reconstruir p ++ [a.getD ""]

/-- The A* loop shared verbatim by `astar_hamming` and `astar_manhattan`,
parameterized by the heuristic `h` and by loop fuel (the Python `while`
runs unboundedly; `none` means the fuel ran out, `some none` means the
frontier was exhausted — Python returns `None` —, and `some (some caminho)`
means the goal was popped and `caminho` reconstructed). -/
def astarLoop (h : List Char → ℕ) :
    ℕ → List (ℕ × Nodo) → List (List Char) → Option (Option (List String))
  | 0, _, _ => none
  | fuel + 1, fronteira, explorados =>
    match heappop fronteira with
    | none => some none
    | some ((_, nodo_atual), fronteira1) =>
      if nodo_atual.estado = objetivo then some (some (reconstruir nodo_atual))
      else
        let explorados1 := explorados.insert nodo_atual.estado
        let fronteira2 :=
          (expande nodo_atual).foldl
            (fun fr nodo_sucessor =>
              if nodo_sucessor.estado ∈ explorados1 then fr
              else heappush fr (nodo_sucessor.custo + h nodo_sucessor.estado, nodo_sucessor))
            fronteira1
        astarLoop h fuel fronteira2 explorados1

/-- Common entry of both A* routines: push the root node keyed by its
heuristic value onto an empty frontier and run the loop with an empty
explored set. -/
def astarBusca (h : List Char → ℕ) (fuel : ℕ) (estado : List Char) :
    Option (Option (List String)) :=
  let nodo_raiz : Nodo := .mk estado none none 0
  astarLoop h fuel (heappush [] (h nodo_raiz.estado, nodo_raiz)) []

/-- `astar_hamming(estado)`, with explicit loop fuel. -/
def astar_hamming (fuel : ℕ) (estado : List Char) : Option (Option (List String)) :=
  astarBusca hamming_heuristica fuel estado

/-- `astar_manhattan(estado)`, with explicit loop fuel. -/
def astar_manhattan (fuel : ℕ) (estado : List Char) : Option (Option (List String)) :=
  astarBusca manhattan_heuristica fuel estado

/-- The exception raised by the unimplemented optional strategies. -/
inductive PyExc where
  | notImplementedError
deriving DecidableEq

/-- `bfs(estado)`: the body is `raise NotImplementedError`. -/
def bfs (_estado : List Char) : Except PyExc (Option (List String)) :=
  .error .notImplementedError

/-- `dfs(estado)`: the body is `raise NotImplementedError`. -/
def dfs (_estado : List Char) : Except PyExc (Option (List String)) :=
  .error .notImplementedError

/-- `astar_new_heuristic(estado)`: the body is `raise NotImplementedError`. -/
def astar_new_heuristic (_estado : List Char) : Except PyExc (Option (List String)) :=
  .error .notImplementedError

/-- A well-formed state: a permutation of the nine symbols `1`–`8`, `_`. -/
def BemFormado (l : List Char) : Prop := l.Perm objetivo

instance : DecidablePred BemFormado := fun l => by
  unfold BemFormado; infer_instance

/-- Apply a move label to a state via `sucessor`: the state paired with the
label, if the label is among the legal moves. -/
def aplicar (estado : List Char) (acao : String) : Option (List Char) :=
  ((sucessor estado).find? (fun p => p.1 == acao)).map (·.2)

/-- Replay a list of move labels from a state via `sucessor`. -/
def replay (estado : List Char) : List String → Option (List Char)
  | [] => some estado
  | acao :: resto =>
    match aplicar estado acao with
    | some t => replay t resto
    | none => none

/-- A state is solvable when some move sequence replays from it to the goal. -/
def Solvavel (estado : List Char) : Prop :=
  ∃ caminho : List String, replay estado caminho = some objetivo

/-- A move sequence from `s` reaches `z`. -/
def Alcanca (s z : List Char) : Prop :=
  ∃ caminho : List String, replay s caminho = some z

/-- `n` is the length of a shortest move sequence from `s` to `z`. -/
def DistEq (s z : List Char) (n : ℕ) : Prop :=
  (∃ caminho, replay s caminho = some z ∧ caminho.length = n) ∧
  ∀ m, (∃ caminho, replay s caminho = some z ∧ caminho.length = m) → n ≤ m

/-- Position of the blank in a state (first, hence for well-formed states the
unique, occurrence of `'_'`). -/
def posVazio (l : List Char) : ℕ := l.indexOf '_'

/-- The spec's legality condition for a move, in terms of the blank's row and
column: left needs `column > 0`, right `column < 2`, up `row > 0`, down
`row < 2`. -/
def PodeMover (l : List Char) (acao : String) : Bool :=
  let coluna := posVazio l % 3
  let linha := posVazio l / 3
  if acao = "esquerda" then 0 < coluna
  else if acao = "direita" then coluna < 2
  else if acao = "acima" then 0 < linha
  else if acao = "abaixo" then linha < 2
  else false

/-- Swap of the characters at two natural indices (the in-range case of
`trocar`). -/
def swapNat (l : List Char) (a b : ℕ) : List Char :=
  (l.set a (nth l b)).set b (nth l a)

/-- What `sucessor` computes on a state whose (unique) blank is at index
`i < 9`: the legal moves in source order, each swapping the blank with its
neighbour. -/
def listaSuc (l : List Char) (i : ℕ) : List (String × List Char) :=
  (if 0 < i % 3 then [("esquerda", swapNat l i (i - 1))] else []) ++
  (if i % 3 < 2 then [("direita", swapNat l i (i + 1))] else []) ++
  (if 0 < i / 3 then [("acima", swapNat l i (i - 3))] else []) ++
  (if i / 3 < 2 then [("abaixo", swapNat l i (i + 3))] else [])

/-- Number of inversions of a character list: pairs appearing in decreasing
order.  Applied to the tile sequence (a state with the blank removed) it is
the classic 8-puzzle solvability invariant. -/
def inversoes : List Char → ℕ
  | [] => 0
  | c :: resto => resto.countP (fun d => d < c) + inversoes resto

/-- The tile sequence of a state: the characters without the blank. -/
def tiles (l : List Char) : List Char := l.filter (fun c => c ≠ '_')

/-- Soundness of a search node with respect to a start state: its
reconstructed action list replays from the start to its state and has length
equal to its cost. -/
def NodoSane (s : List Char) (n : Nodo) : Prop :=
  replay s (reconstruir n) = some n.estado ∧ (reconstruir n).length = n.custo

/-- Key order on heap entries: the (total, decidable) order underlying the
Python tuple comparison `(f₁, n₁) ≤ (f₂, n₂)`. -/
def chaveLe (x y : ℕ × Nodo) : Prop :=
  x.1 < y.1 ∨ (x.1 = y.1 ∧ x.2.custo ≤ y.2.custo)

/-- Strict key order on heap entries (what the Python `<` of `ltEntry`
decides). -/
def chaveLt (x y : ℕ × Nodo) : Prop :=
  x.1 < y.1 ∨ (x.1 = y.1 ∧ x.2.custo < y.2.custo)

/-- The binary-heap shape invariant maintained by `heappush`/`heappop`:
every element is `≥` its parent in the key order. -/
def HeapInv (l : List (ℕ × Nodo)) : Prop :=
  ∀ j, 0 < j → j < l.length → chaveLe (l.getD ((j - 1) / 2) default) (l.getD j default)

/-- Precondition of the bubble-up loop `siftdownAux` (with `startpos = 0`):
on the virtual array with `newitem` written at `pos`, every parent–child edge
holds except possibly the one into `pos`, and the parent of `pos` already
dominates the children of `pos`. -/
def QuaseHeap (l : List (ℕ × Nodo)) (pos : ℕ) (newitem : ℕ × Nodo) : Prop :=
  (∀ j, 0 < j → j < l.length → j ≠ pos →
    chaveLe ((l.set pos newitem).getD ((j - 1) / 2) default)
      ((l.set pos newitem).getD j default)) ∧
  (0 < pos → ∀ j, j < l.length → (j - 1) / 2 = pos →
    chaveLe ((l.set pos newitem).getD ((pos - 1) / 2) default)
      ((l.set pos newitem).getD j default))

/-- Invariant of the walk-down loop `siftupAux`: a heap with a "hole" at
`pos` — all edges not touching `pos` hold, and the parent of `pos` dominates
the children of `pos`. -/
def HoleInv (l : List (ℕ × Nodo)) (pos : ℕ) : Prop :=
  (∀ j, 0 < j → j < l.length → j ≠ pos → (j - 1) / 2 ≠ pos →
    chaveLe (l.getD ((j - 1) / 2) default) (l.getD j default)) ∧
  (0 < pos → ∀ j, j < l.length → (j - 1) / 2 = pos →
    chaveLe (l.getD ((pos - 1) / 2) default) (l.getD j default))

/-- State reached after replaying the first `j` labels of `c` from `s`
(meaningful whenever that prefix replays successfully). -/
def pathState (s : List Char) (c : List String) (j : ℕ) : List Char :=
  (replay s (c.take j)).getD objetivo

/-- Frontier sanity maintained by the A* loop: the heap shape invariant, and
every entry is a sound node keyed by `custo + h estado` with a well-formed
state. -/
def FrontInv (h : List Char → ℕ) (s : List Char) (F : List (ℕ × Nodo)) : Prop :=
  HeapInv F ∧ ∀ e ∈ F, NodoSane s e.2 ∧ e.1 = e.2.custo + h e.2.estado ∧
    BemFormado e.2.estado

/-- Explored-set invariant: every explored state was first popped with an
optimal-cost node, and each of its unexplored successors has a frontier
entry costing at most one more than that optimum. -/
def ExpInv (s : List Char) (F : List (ℕ × Nodo)) (E : List (List Char)) : Prop :=
  ∀ z ∈ E, ∃ d, DistEq s z d ∧
    ∀ p ∈ sucessor z, p.2 ∉ E →
      ∃ e ∈ F, e.2.estado = p.2 ∧ e.2.custo ≤ d + 1

/-- Shortest-path frontier invariant: along every shortest replay path to an
unexplored state, the first unexplored intermediate state has a frontier
entry whose cost does not exceed its index (its true distance from the
start). -/
def PathInv (s : List Char) (F : List (ℕ × Nodo)) (E : List (List Char)) : Prop :=
  ∀ (z : List Char) (c : List String), z ∉ E → replay s c = some z →
    (∀ c2, replay s c2 = some z → c.length ≤ c2.length) →
    ∃ i, i ≤ c.length ∧ pathState s c i ∉ E ∧ (∀ j < i, pathState s c j ∈ E) ∧
      ∃ e ∈ F, e.2.estado = pathState s c i ∧ e.2.custo ≤ i

/-! ### Generic list lemmas -/

theorem nth_eq_getElem (l : List Char) (i : ℕ) (h : i < l.length) : nth l i = l[i] := by
  simp [nth, List.getD_eq_getElem?_getD, List.getElem?_eq_getElem h]

theorem nth_set_self (l : List Char) (i : ℕ) (c : Char) (h : i < l.length) :
    nth (l.set i c) i = c := by
  simp [nth, List.getD_eq_getElem?_getD, List.getElem?_set_eq_of_lt c h]

theorem nth_set_ne (l : List Char) (i j : ℕ) (c : Char) (h : i ≠ j) :
    nth (l.set i c) j = nth l j := by
  simp [nth, List.getD_eq_getElem?_getD, List.getElem?_set_ne h]

theorem perm_cons_set : ∀ (k : ℕ) (t : List Char) (a : Char), k < t.length →
    List.Perm (nth t k :: t.set k a) (a :: t)
  | 0, b :: s, a, _ => by
    have : nth (b :: s) 0 = b := by simp [nth]
    rw [this]; exact List.Perm.swap a b s
  | k + 1, b :: s, a, h => by
    have hk : k < s.length := by simpa using h
    have ih := perm_cons_set k s a hk
    have e1 : nth (b :: s) (k + 1) = nth s k := by simp [nth]
    have e2 : (b :: s).set (k + 1) a = b :: s.set k a := by simp
    rw [e1, e2]
    exact ((List.Perm.swap b (nth s k) (s.set k a)).trans (ih.cons b)).trans
      (List.Perm.swap a b s)

theorem swapNat_perm : ∀ (l : List Char) (i j : ℕ), i < l.length → j < l.length → i ≠ j →
    List.Perm (swapNat l i j) l
  | [], i, _, hi, _, _ => absurd hi (by simp)
  | _ :: _, 0, 0, _, _, hne => absurd rfl hne
  | a :: t, 0, j + 1, _, hj, _ => by
    have hjt : j < t.length := by simpa using hj
    have e1 : (a :: t).set 0 (nth (a :: t) (j + 1)) = nth t j :: t := by simp [nth]
    have e2 : (nth t j :: t).set (j + 1) (nth (a :: t) 0) = nth t j :: t.set j a := by
      simp [nth]
    rw [swapNat, e1, e2]
    exact perm_cons_set j t a hjt
  | a :: t, i + 1, 0, hi, _, _ => by
    have hit : i < t.length := by simpa using hi
    have e1 : (a :: t).set (i + 1) (nth (a :: t) 0) = a :: t.set i a := by simp [nth]
    have e2 : (a :: t.set i a).set 0 (nth (a :: t) (i + 1)) = nth t i :: t.set i a := by
      simp [nth]
    rw [swapNat, e1, e2]
    exact perm_cons_set i t a hit
  | a :: t, i + 1, j + 1, hi, hj, hne => by
    have hit : i < t.length := by simpa using hi
    have hjt : j < t.length := by simpa using hj
    have hne' : i ≠ j := by omega
    have e1 : swapNat (a :: t) (i + 1) (j + 1) = a :: swapNat t i j := by
      simp [swapNat, nth]
    rw [e1]
    exact (swapNat_perm t i j hit hjt hne').cons a

theorem trocar_eq_swapNat (l : List Char) (x y : ℕ) (hx : x < l.length) (hy : y < l.length) :
    trocar l (x : ℤ) (y : ℤ) = swapNat l x y := by
  have hpx : pyIdx l.length (x : ℤ) = some x := by
    simp only [pyIdx]
    have : ¬ ((x : ℤ) < 0) := by omega
    rw [if_neg this]
    have : (0 : ℤ) ≤ (x : ℤ) ∧ (x : ℤ) < l.length := by omega
    rw [if_pos this]
    simp
  have hpy : pyIdx l.length (y : ℤ) = some y := by
    simp only [pyIdx]
    have : ¬ ((y : ℤ) < 0) := by omega
    rw [if_neg this]
    have : (0 : ℤ) ≤ (y : ℤ) ∧ (y : ℤ) < l.length := by omega
    rw [if_pos this]
    simp
  simp [trocar, hpx, hpy, swapNat]

/-! ### Well-formed states and the blank position -/

theorem bemFormado_length {l : List Char} (hl : BemFormado l) : l.length = 9 := by
  simpa using hl.length_eq

theorem bemFormado_nodup {l : List Char} (hl : BemFormado l) : l.Nodup :=
  List.Perm.nodup hl.symm (by decide)

theorem bemFormado_blank {l : List Char} (hl : BemFormado l) :
    ∃ i, i < 9 ∧ nth l i = '_' ∧ ∀ j, j < 9 → nth l j = '_' → j = i := by
  have hlen := bemFormado_length hl
  have hmem : '_' ∈ l := hl.mem_iff.mpr (by decide)
  obtain ⟨n, hn, he⟩ := List.getElem_of_mem hmem
  refine ⟨n, by omega, ?_, ?_⟩
  · rw [nth_eq_getElem l n hn, he]
  · intro j hj hbj
    have hj2 : j < l.length := by omega
    rw [nth_eq_getElem l j hj2] at hbj
    have hge : l[j] = l[n] := by rw [hbj, he]
    exact ((bemFormado_nodup hl).getElem_inj_iff).mp hge

theorem findIdx?_first (p : Char → Bool) :
    ∀ (L : List Char) (k : ℕ), k < L.length → p (L.getD k ' ') = true →
      (∀ m, m < k → p (L.getD m ' ') = false) → L.findIdx? p = some k
  | [], k, h, _, _ => absurd h (by simp)
  | x :: xs, 0, _, hp, _ => by
    have hx : p x = true := by simpa using hp
    simp [List.findIdx?_cons, hx]
  | x :: xs, k + 1, h, hp, hmin => by
    have h0 : p x = false := by simpa using hmin 0 (by omega)
    have ih := findIdx?_first p xs k (by simpa using h) (by simpa using hp)
      (fun m hm => by simpa using hmin (m + 1) (by omega))
    rw [List.findIdx?_cons, h0]
    simp only [Bool.false_eq_true, if_false]
    rw [List.findIdx?_succ, ih]
    rfl

theorem getD_reverse (l : List Char) (k : ℕ) (hk : k < l.length) :
    l.reverse.getD k ' ' = l.getD (l.length - 1 - k) ' ' := by
  have hk2 : k < l.reverse.length := by simpa using hk
  have hk3 : l.length - 1 - k < l.length := by omega
  rw [List.getD_eq_getElem?_getD, List.getElem?_eq_getElem hk2, Option.getD_some,
    List.getElem_reverse, List.getD_eq_getElem?_getD, List.getElem?_eq_getElem hk3,
    Option.getD_some]

theorem rfind_eq {l : List Char} {i : ℕ} (hlen : l.length = 9) (hi : i < 9)
    (hblank : nth l i = '_') (huniq : ∀ j, j < 9 → nth l j = '_' → j = i) :
    rfind l '_' = (i : ℤ) := by
  have hrev : l.reverse.findIdx? (· == '_') = some (8 - i) := by
    apply findIdx?_first
    · simp [hlen]; omega
    · have h1 : l.reverse.getD (8 - i) ' ' = l.getD (l.length - 1 - (8 - i)) ' ' :=
        getD_reverse l (8 - i) (by omega)
      have h2 : l.length - 1 - (8 - i) = i := by omega
      rw [h1, h2]
      have h3 : l.getD i ' ' = '_' := hblank
      simp only [beq_iff_eq]
      exact h3
    · intro m hm
      by_contra hcon
      have h1 : l.reverse.getD m ' ' = l.getD (l.length - 1 - m) ' ' :=
        getD_reverse l m (by omega)
      rw [h1] at hcon
      have hbm : l.getD (l.length - 1 - m) ' ' = '_' := by
        by_cases heq : l.getD (l.length - 1 - m) ' ' = '_'
        · exact heq
        · exact absurd (by simp only [beq_eq_false_iff_ne]; exact heq) hcon
      have := huniq (l.length - 1 - m) (by omega) hbm
      omega
  rw [rfind, hrev]
  simp [hlen]
  omega

theorem sucessor_eq_listaSuc {l : List Char} {i : ℕ} (hlen : l.length = 9) (hi : i < 9)
    (hblank : nth l i = '_') (huniq : ∀ j, j < 9 → nth l j = '_' → j = i) :
    sucessor l = listaSuc l i := by
  have hr := rfind_eq hlen hi hblank huniq
  have hm : Int.emod (i : ℤ) 3 = ((i % 3 : ℕ) : ℤ) := by
    have h2 : (i : ℤ) % 3 = ((i % 3 : ℕ) : ℤ) := by omega
    exact h2
  have hd : Int.fdiv (i : ℤ) 3 = ((i / 3 : ℕ) : ℤ) := by
    rw [Int.fdiv_eq_ediv _ (by norm_num)]
    omega
  unfold sucessor
  simp only [hr, hm, hd]
  unfold listaSuc
  have e1 : (if (0 : ℤ) < ((i % 3 : ℕ) : ℤ) then
        [("esquerda", trocar l (i : ℤ) ((i : ℤ) - 1))] else [])
      = (if 0 < i % 3 then [("esquerda", swapNat l i (i - 1))] else []) := by
    by_cases h : 0 < i % 3
    · rw [if_pos (by exact_mod_cast h), if_pos h]
      have harg : ((i : ℤ) - 1) = ((i - 1 : ℕ) : ℤ) := by omega
      rw [harg, trocar_eq_swapNat l i (i - 1) (by omega) (by omega)]
    · rw [if_neg (by exact_mod_cast h), if_neg h]
  have e2 : (if ((i % 3 : ℕ) : ℤ) < 2 then
        [("direita", trocar l (i : ℤ) ((i : ℤ) + 1))] else [])
      = (if i % 3 < 2 then [("direita", swapNat l i (i + 1))] else []) := by
    by_cases h : i % 3 < 2
    · rw [if_pos (by exact_mod_cast h), if_pos h]
      have harg : ((i : ℤ) + 1) = ((i + 1 : ℕ) : ℤ) := by omega
      rw [harg, trocar_eq_swapNat l i (i + 1) (by omega) (by omega)]
    · rw [if_neg (by exact_mod_cast h), if_neg h]
  have e3 : (if (0 : ℤ) < ((i / 3 : ℕ) : ℤ) then
        [("acima", trocar l (i : ℤ) ((i : ℤ) - 3))] else [])
      = (if 0 < i / 3 then [("acima", swapNat l i (i - 3))] else []) := by
    by_cases h : 0 < i / 3
    · rw [if_pos (by exact_mod_cast h), if_pos h]
      have harg : ((i : ℤ) - 3) = ((i - 3 : ℕ) : ℤ) := by omega
      rw [harg, trocar_eq_swapNat l i (i - 3) (by omega) (by omega)]
    · rw [if_neg (by exact_mod_cast h), if_neg h]
  have e4 : (if ((i / 3 : ℕ) : ℤ) < 2 then
        [("abaixo", trocar l (i : ℤ) ((i : ℤ) + 3))] else [])
      = (if i / 3 < 2 then [("abaixo", swapNat l i (i + 3))] else []) := by
    by_cases h : i / 3 < 2
    · rw [if_pos (by exact_mod_cast h), if_pos h]
      have harg : ((i : ℤ) + 3) = ((i + 3 : ℕ) : ℤ) := by omega
      rw [harg, trocar_eq_swapNat l i (i + 3) (by omega) (by omega)]
    · rw [if_neg (by exact_mod_cast h), if_neg h]
  rw [e1, e2, e3, e4]

theorem sucessor_bem {l : List Char} (hl : BemFormado l) :
    ∃ i, i < 9 ∧ nth l i = '_' ∧ (∀ j, j < 9 → nth l j = '_' → j = i) ∧
      sucessor l = listaSuc l i := by
  obtain ⟨i, hi, hblank, huniq⟩ := bemFormado_blank hl
  exact ⟨i, hi, hblank, huniq, sucessor_eq_listaSuc (bemFormado_length hl) hi hblank huniq⟩

theorem mem_ite_singleton {c : Prop} [Decidable c] {x p : String × List Char}
    (hp : p ∈ (if c then [x] else [])) : c ∧ p = x := by
  by_cases hc : c
  · rw [if_pos hc] at hp
    simp only [List.mem_singleton] at hp
    exact ⟨hc, hp⟩
  · rw [if_neg hc] at hp
    exact absurd hp (List.not_mem_nil _)

theorem mem_listaSuc {l : List Char} {i : ℕ} {p : String × List Char}
    (hp : p ∈ listaSuc l i) :
    (0 < i % 3 ∧ p = ("esquerda", swapNat l i (i - 1))) ∨
    (i % 3 < 2 ∧ p = ("direita", swapNat l i (i + 1))) ∨
    (0 < i / 3 ∧ p = ("acima", swapNat l i (i - 3))) ∨
    (i / 3 < 2 ∧ p = ("abaixo", swapNat l i (i + 3))) := by
  unfold listaSuc at hp
  simp only [List.mem_append] at hp
  rcases hp with ((h | h) | h) | h
  · exact Or.inl (mem_ite_singleton h)
  · exact Or.inr (Or.inl (mem_ite_singleton h))
  · exact Or.inr (Or.inr (Or.inl (mem_ite_singleton h)))
  · exact Or.inr (Or.inr (Or.inr (mem_ite_singleton h)))

theorem nth_swapNat_snd {l : List Char} {a b : ℕ} (hb : b < l.length) :
    nth (swapNat l a b) b = nth l a := by
  unfold swapNat
  exact nth_set_self _ _ _ (by simpa using hb)

theorem nth_swapNat_fst {l : List Char} {a b : ℕ} (ha : a < l.length) (hne : b ≠ a) :
    nth (swapNat l a b) a = nth l b := by
  unfold swapNat
  rw [nth_set_ne _ _ _ _ hne, nth_set_self _ _ _ ha]

theorem nth_swapNat_other {l : List Char} {a b k : ℕ} (hka : a ≠ k) (hkb : b ≠ k) :
    nth (swapNat l a b) k = nth l k := by
  unfold swapNat
  rw [nth_set_ne _ _ _ _ hkb, nth_set_ne _ _ _ _ hka]

theorem sucessor_mem_perm {l : List Char} (hl : BemFormado l) {p : String × List Char}
    (hp : p ∈ sucessor l) : List.Perm p.2 l := by
  obtain ⟨i, hi, hblank, huniq, heq⟩ := sucessor_bem hl
  have hlen := bemFormado_length hl
  rw [heq] at hp
  rcases mem_listaSuc hp with ⟨hc, rfl⟩ | ⟨hc, rfl⟩ | ⟨hc, rfl⟩ | ⟨hc, rfl⟩ <;>
    exact swapNat_perm l i _ (by omega) (by omega) (by omega)

theorem sucessor_mem_bem {l : List Char} (hl : BemFormado l) {p : String × List Char}
    (hp : p ∈ sucessor l) : BemFormado p.2 :=
  (sucessor_mem_perm hl hp).trans hl

theorem indexOf_first (c : Char) : ∀ (L : List Char) (k : ℕ), k < L.length →
    L.getD k ' ' = c → (∀ m, m < k → L.getD m ' ' ≠ c) → L.indexOf c = k
  | [], k, h, _, _ => absurd h (by simp)
  | x :: xs, 0, _, hp, _ => by
    have hx : x = c := by simpa using hp
    simp [List.indexOf_cons, hx]
  | x :: xs, k + 1, h, hp, hmin => by
    have h0 : x ≠ c := by simpa using hmin 0 (by omega)
    have ih := indexOf_first c xs k (by simpa using h) (by simpa using hp)
      (fun m hm => by simpa using hmin (m + 1) (by omega))
    have hb : (x == c) = false := by simpa using h0
    rw [List.indexOf_cons, hb, ih]
    rfl

theorem posVazio_eq {l : List Char} {i : ℕ} (hlen : l.length = 9) (hi : i < 9)
    (hblank : nth l i = '_') (huniq : ∀ j, j < 9 → nth l j = '_' → j = i) :
    posVazio l = i := by
  apply indexOf_first '_' l i (by omega) hblank
  intro m hm hmc
  have := huniq m (by omega) hmc
  omega

theorem swapNat_ne_swapNat {l : List Char} {i : ℕ} (hlen : l.length = 9) (hi : i < 9)
    (hblank : nth l i = '_') (huniq : ∀ j, j < 9 → nth l j = '_' → j = i)
    {t1 t2 : ℕ} (h1 : t1 < 9) (h2 : t2 < 9) (hne : t1 ≠ t2) (hi1 : t1 ≠ i) (hi2 : t2 ≠ i) :
    swapNat l i t1 ≠ swapNat l i t2 := by
  intro heq
  have e1 : nth (swapNat l i t1) t1 = '_' := by
    rw [nth_swapNat_snd (by omega)]; exact hblank
  have e2 : nth (swapNat l i t2) t1 = nth l t1 :=
    nth_swapNat_other (fun h => hi1 h.symm) (fun h => hne h.symm)
  rw [heq, e2] at e1
  exact hi1 (huniq t1 (by omega) e1)

theorem nodup_snd_sucessor {l : List Char} (hl : BemFormado l) :
    ((sucessor l).map Prod.snd).Nodup := by
  obtain ⟨i, hi, hblank, huniq, heq⟩ := sucessor_bem hl
  have hlen := bemFormado_length hl
  have key : ∀ t1 t2 : ℕ, t1 < 9 → t2 < 9 → t1 ≠ t2 → t1 ≠ i → t2 ≠ i →
      swapNat l i t1 ≠ swapNat l i t2 :=
    fun t1 t2 a b c d e => swapNat_ne_swapNat hlen hi hblank huniq a b c d e
  rw [heq]
  interval_cases i <;>
    simp [listaSuc, List.nodup_cons] <;>
    (repeat' apply And.intro) <;>
    exact key _ _ (by omega) (by omega) (by omega) (by omega) (by omega)

/-! ### Expansion lemmas -/

theorem expandePasso_sne {nodo : Nodo} {acc : List Nodo} {p : String × List Char}
    (h : ∀ m ∈ acc, m.estado ≠ p.2) :
    expandePasso nodo acc p = acc ++ [Nodo.mk p.2 (some nodo) (some p.1) (nodo.custo + 1)] := by
  simp only [expandePasso]
  have hno : ¬ (acc.any fun m =>
      nodoEq m (Nodo.mk p.2 (some nodo) (some p.1) (nodo.custo + 1))) = true := by
    intro hany
    rcases List.any_eq_true.mp hany with ⟨m, hm, hbe⟩
    exact h m hm (by simpa [nodoEq, Nodo.estado] using hbe)
  rw [if_neg hno]

theorem foldl_expandePasso_eq_map (nodo : Nodo) :
    ∀ (L : List (String × List Char)) (acc : List Nodo),
      (∀ p ∈ L, ∀ m ∈ acc, m.estado ≠ p.2) → (L.map Prod.snd).Nodup →
      L.foldl (expandePasso nodo) acc
        = acc ++ L.map (fun p => Nodo.mk p.2 (some nodo) (some p.1) (nodo.custo + 1))
  | [], acc, _, _ => by simp
  | p :: rest, acc, hacc, hnd => by
    rw [List.foldl_cons, expandePasso_sne (hacc p (by simp))]
    have hnd1 : (p.2 :: rest.map Prod.snd).Nodup := by simpa using hnd
    have hnd2 : (rest.map Prod.snd).Nodup := hnd1.of_cons
    have hhead : p.2 ∉ rest.map Prod.snd := (List.nodup_cons.mp hnd1).1
    have hacc2 : ∀ q ∈ rest, ∀ m ∈ acc ++ [Nodo.mk p.2 (some nodo) (some p.1) (nodo.custo + 1)],
        m.estado ≠ q.2 := by
      intro q hq m hm
      rcases List.mem_append.mp hm with hm1 | hm2
      · exact hacc q (by simp [hq]) m hm1
      · have : m = Nodo.mk p.2 (some nodo) (some p.1) (nodo.custo + 1) := by simpa using hm2
        subst this
        simp only [Nodo.estado]
        intro hqe
        exact hhead (by simpa [hqe] using List.mem_map_of_mem Prod.snd hq)
    rw [foldl_expandePasso_eq_map nodo rest _ hacc2 hnd2]
    simp

theorem expande_eq_map {nodo : Nodo} (hnd : ((sucessor nodo.estado).map Prod.snd).Nodup) :
    expande nodo = (sucessor nodo.estado).map
      (fun p => Nodo.mk p.2 (some nodo) (some p.1) (nodo.custo + 1)) := by
  unfold expande
  rw [foldl_expandePasso_eq_map nodo _ [] (by simp) hnd]
  simp

theorem foldl_expandePasso_mem (nodo : Nodo) :
    ∀ (L : List (String × List Char)) (acc : List Nodo) (c : Nodo),
      c ∈ L.foldl (expandePasso nodo) acc →
      c ∈ acc ∨ ∃ p ∈ L, c = Nodo.mk p.2 (some nodo) (some p.1) (nodo.custo + 1)
  | [], acc, c, hc => Or.inl (by simpa using hc)
  | p :: rest, acc, c, hc => by
    rw [List.foldl_cons] at hc
    rcases foldl_expandePasso_mem nodo rest _ c hc with hacc | ⟨q, hq, hcq⟩
    · unfold expandePasso at hacc
      by_cases hany : (acc.any fun m => nodoEq m (Nodo.mk p.2 (some nodo) (some p.1) (nodo.custo + 1)))
      · rw [if_pos hany] at hacc
        exact Or.inl hacc
      · rw [if_neg hany] at hacc
        rcases List.mem_append.mp hacc with h1 | h2
        · exact Or.inl h1
        · exact Or.inr ⟨p, by simp, by simpa using h2⟩
    · exact Or.inr ⟨q, by simp [hq], hcq⟩

theorem expande_mem {nodo c : Nodo} (hc : c ∈ expande nodo) :
    c.custo = nodo.custo + 1 ∧ c.pai = some nodo ∧
      ∃ a, c.acao = some a ∧ (a, c.estado) ∈ sucessor nodo.estado := by
  rcases foldl_expandePasso_mem nodo _ [] c hc with h | ⟨p, hp, rfl⟩
  · exact absurd h (List.not_mem_nil c)
  · exact ⟨rfl, rfl, p.1, rfl, by simpa using hp⟩

theorem foldl_expandePasso_cobre (nodo : Nodo) :
    ∀ (L : List (String × List Char)) (acc : List Nodo) (t : List Char),
      ((∃ p ∈ L, p.2 = t) ∨ (∃ c ∈ acc, c.estado = t)) →
      ∃ c ∈ L.foldl (expandePasso nodo) acc, c.estado = t
  | [], acc, t, h => by
    rcases h with ⟨p, hp, _⟩ | h
    · exact absurd hp (List.not_mem_nil p)
    · simpa using h
  | p :: rest, acc, t, h => by
    rw [List.foldl_cons]
    apply foldl_expandePasso_cobre nodo rest
    have hsub : ∀ c ∈ acc, c ∈ expandePasso nodo acc p := by
      intro c hcm
      unfold expandePasso
      by_cases hany : (acc.any fun m => nodoEq m (Nodo.mk p.2 (some nodo) (some p.1) (nodo.custo + 1)))
      · rw [if_pos hany]; exact hcm
      · rw [if_neg hany]; exact List.mem_append.mpr (Or.inl hcm)
    rcases h with ⟨q, hq, hqt⟩ | ⟨c, hc, hct⟩
    · rcases List.mem_cons.mp hq with rfl | hq2
      · right
        unfold expandePasso
        by_cases hany : (acc.any fun m => nodoEq m (Nodo.mk q.2 (some nodo) (some q.1) (nodo.custo + 1)))
        · rw [if_pos hany]
          rcases List.any_eq_true.mp hany with ⟨m, hm, hbe⟩
          exact ⟨m, hm, by simpa [nodoEq, Nodo.estado, hqt] using hbe⟩
        · rw [if_neg hany]
          exact ⟨Nodo.mk q.2 (some nodo) (some q.1) (nodo.custo + 1), by simp,
            by simpa [Nodo.estado] using hqt⟩
      · exact Or.inl ⟨q, hq2, hqt⟩
    · exact Or.inr ⟨c, hsub c hc, hct⟩

theorem expande_cobre {nodo : Nodo} {t : List Char}
    (ht : t ∈ (sucessor nodo.estado).map Prod.snd) :
    ∃ c ∈ expande nodo, c.estado = t := by
  apply foldl_expandePasso_cobre nodo _ []
  left
  simpa using ht

theorem length_sucessor_eq {l : List Char} (hl : BemFormado l) :
    (sucessor l).length =
      (if 0 < posVazio l % 3 then 1 else 0) + (if posVazio l % 3 < 2 then 1 else 0) +
      (if 0 < posVazio l / 3 then 1 else 0) + (if posVazio l / 3 < 2 then 1 else 0) := by
  obtain ⟨i, hi, hblank, huniq, heq⟩ := sucessor_bem hl
  have hlen := bemFormado_length hl
  have hpv := posVazio_eq hlen hi hblank huniq
  rw [heq, hpv]
  interval_cases i <;> simp [listaSuc]

theorem map_fst_sucessor {l : List Char} (hl : BemFormado l) :
    (sucessor l).map Prod.fst =
      (["esquerda", "direita", "acima", "abaixo"]).filter (PodeMover l) := by
  obtain ⟨i, hi, hblank, huniq, heq⟩ := sucessor_bem hl
  have hlen := bemFormado_length hl
  have hpv := posVazio_eq hlen hi hblank huniq
  rw [heq]
  interval_cases i <;> simp [listaSuc, PodeMover, hpv]

/-! ### Claim theorems: successor generator, expansion, node identity -/

/-- Claim C5: for every valid (well-formed) state, `sucessor` returns between
2 and 4 pairs — the count determined by the boundary conditions
`column > 0` / `column < 2` / `row > 0` / `row < 2` on the blank position:
2 in a corner, 3 on an edge, 4 in the center — and each resulting state is a
permutation of the input's nine symbols. -/
theorem claim_C5_sucessor_count_perm (l : List Char) (hl : BemFormado l) :
    (2 ≤ (sucessor l).length ∧ (sucessor l).length ≤ 4) ∧
    (sucessor l).length =
      (if 0 < posVazio l % 3 then 1 else 0) + (if posVazio l % 3 < 2 then 1 else 0) +
      (if 0 < posVazio l / 3 then 1 else 0) + (if posVazio l / 3 < 2 then 1 else 0) ∧
    ((posVazio l = 0 ∨ posVazio l = 2 ∨ posVazio l = 6 ∨ posVazio l = 8) →
      (sucessor l).length = 2) ∧
    ((posVazio l = 1 ∨ posVazio l = 3 ∨ posVazio l = 5 ∨ posVazio l = 7) →
      (sucessor l).length = 3) ∧
    (posVazio l = 4 → (sucessor l).length = 4) ∧
    (∀ p ∈ sucessor l, List.Perm p.2 l) := by
  obtain ⟨i, hi, hblank, huniq, heq⟩ := sucessor_bem hl
  have hlen := bemFormado_length hl
  have hpv := posVazio_eq hlen hi hblank huniq
  refine ⟨?_, length_sucessor_eq hl, ?_, ?_, ?_, fun p hp => sucessor_mem_perm hl hp⟩ <;>
    simp only [heq, hpv] <;>
    interval_cases i <;>
    simp [listaSuc]

/-- Claim C5, witness: the goal state is well-formed, its blank is in the
corner position 8, and the claim's conclusions evaluate there. -/
theorem claim_C5_witness :
    BemFormado objetivo ∧
    ((2 ≤ (sucessor objetivo).length ∧ (sucessor objetivo).length ≤ 4) ∧
    (sucessor objetivo).length =
      (if 0 < posVazio objetivo % 3 then 1 else 0) +
      (if posVazio objetivo % 3 < 2 then 1 else 0) +
      (if 0 < posVazio objetivo / 3 then 1 else 0) +
      (if posVazio objetivo / 3 < 2 then 1 else 0) ∧
    ((posVazio objetivo = 0 ∨ posVazio objetivo = 2 ∨ posVazio objetivo = 6 ∨
        posVazio objetivo = 8) → (sucessor objetivo).length = 2) ∧
    ((posVazio objetivo = 1 ∨ posVazio objetivo = 3 ∨ posVazio objetivo = 5 ∨
        posVazio objetivo = 7) → (sucessor objetivo).length = 3) ∧
    (posVazio objetivo = 4 → (sucessor objetivo).length = 4) ∧
    (∀ p ∈ sucessor objetivo, List.Perm p.2 objetivo)) :=
  ⟨by decide, claim_C5_sucessor_count_perm objetivo (by decide)⟩

/-- Claim C8: node identity is by state only — `__eq__` holds iff the states
are equal (whatever the parents, actions and costs), `__ne__` is its negation,
and `__hash__` is the hash of the state. -/
theorem claim_C8_nodo_identity :
    (∀ n1 n2 : Nodo, nodoEq n1 n2 = true ↔ n1.estado = n2.estado) ∧
    (∀ n1 n2 : Nodo, nodoNe n1 n2 = true ↔ ¬ n1.estado = n2.estado) ∧
    (∀ (hashStr : List Char → ℤ) (n1 : Nodo), nodoHash hashStr n1 = hashStr n1.estado) ∧
    (∀ (e : List Char) (p1 p2 : Option Nodo) (a1 a2 : Option String) (c1 c2 : ℕ),
      nodoEq (Nodo.mk e p1 a1 c1) (Nodo.mk e p2 a2 c2) = true) := by
  refine ⟨?_, ?_, fun _ _ => rfl, ?_⟩
  · intro n1 n2
    simp [nodoEq]
  · intro n1 n2
    simp [nodoNe, nodoEq]
  · intro e p1 p2 a1 a2 c1 c2
    simp [nodoEq, Nodo.estado]

/-- Claim C9 (implicit): `sucessor` returns an ordered list whose labels are
exactly the fixed order esquerda, direita, acima, abaixo filtered by
legality of each move, and it is deterministic. -/
theorem claim_C9_sucessor_order (l : List Char) (hl : BemFormado l) :
    (sucessor l).map Prod.fst =
      (["esquerda", "direita", "acima", "abaixo"]).filter (PodeMover l) ∧
    ∀ l2 : List Char, l2 = l → sucessor l2 = sucessor l :=
  ⟨map_fst_sucessor hl, fun _ h => by rw [h]⟩

/-- Claim C9, witness: evaluation at the goal state (blank in the corner:
only esquerda and acima are legal, in that order). -/
theorem claim_C9_witness :
    BemFormado objetivo ∧
    ((sucessor objetivo).map Prod.fst =
      (["esquerda", "direita", "acima", "abaixo"]).filter (PodeMover objetivo) ∧
    ∀ l2 : List Char, l2 = objetivo → sucessor l2 = sucessor objetivo) :=
  ⟨by decide, claim_C9_sucessor_order objetivo (by decide)⟩

/-- Claim C10 (implicit): for a well-formed state the resulting states of
`sucessor` are pairwise distinct, so `expande` (whose set is keyed by state)
keeps exactly one node per successor pair and no sibling is merged or lost. -/
theorem claim_C10_distinct_children (nodo : Nodo) (hl : BemFormado nodo.estado) :
    ((sucessor nodo.estado).map Prod.snd).Nodup ∧
    expande nodo = (sucessor nodo.estado).map
      (fun p => Nodo.mk p.2 (some nodo) (some p.1) (nodo.custo + 1)) ∧
    (expande nodo).length = (sucessor nodo.estado).length := by
  have hnd := nodup_snd_sucessor hl
  refine ⟨hnd, expande_eq_map hnd, ?_⟩
  rw [expande_eq_map hnd, List.length_map]

/-- Claim C10, witness: evaluation at the root node of the goal state. -/
theorem claim_C10_witness :
    BemFormado (Nodo.mk objetivo none none 0).estado ∧
    (((sucessor (Nodo.mk objetivo none none 0).estado).map Prod.snd).Nodup ∧
    expande (Nodo.mk objetivo none none 0) =
      (sucessor (Nodo.mk objetivo none none 0).estado).map
        (fun p => Nodo.mk p.2 (some (Nodo.mk objetivo none none 0)) (some p.1)
          ((Nodo.mk objetivo none none 0).custo + 1)) ∧
    (expande (Nodo.mk objetivo none none 0)).length =
      (sucessor (Nodo.mk objetivo none none 0).estado).length) :=
  ⟨by decide, claim_C10_distinct_children (Nodo.mk objetivo none none 0) (by decide)⟩

/-- Claim C6, counterexample: on a (necessarily ill-formed) state with
several blanks, two different successor pairs produce the same resulting
state, and the Python `set` built by `expande` — keyed on state — merges
their children: 4 pairs, only 3 children.  So `expande` does not return one
child per pair for *every* node. -/
theorem claim_C6_counterexample :
    (sucessor (Nodo.mk ['a', '_', 'b', '_', '_', 'c', 'd', 'e', 'f'] none none 0).estado).length
        = 4 ∧
    (expande (Nodo.mk ['a', '_', 'b', '_', '_', 'c', 'd', 'e', 'f'] none none 0)).length = 3 := by
  decide

/-- Claim C6 (amended): whenever the successor states of `nodo.estado` are
pairwise distinct — in particular for every node with a well-formed state —
`expande` returns exactly one child per successor pair, with the pair's state
and move label, parent `nodo`, and cost `nodo.custo + 1`; and for every node
whatsoever each child has those fields (merging only drops duplicates).
`expande` reads but never writes the input node (the embedding is a pure
function of `nodo`). -/
theorem claim_C6_expande_amended (nodo : Nodo)
    (hnd : ((sucessor nodo.estado).map Prod.snd).Nodup) :
    expande nodo = (sucessor nodo.estado).map
      (fun p => Nodo.mk p.2 (some nodo) (some p.1) (nodo.custo + 1)) ∧
    ∀ c ∈ expande nodo, c.custo = nodo.custo + 1 ∧ c.pai = some nodo ∧
      ∃ a, c.acao = some a ∧ (a, c.estado) ∈ sucessor nodo.estado :=
  ⟨expande_eq_map hnd, fun _ hc => expande_mem hc⟩

/-- Claim C6 (amended), witness: evaluation at the root node of the goal
state. -/
theorem claim_C6_witness :
    ((sucessor (Nodo.mk objetivo none none 0).estado).map Prod.snd).Nodup ∧
    (expande (Nodo.mk objetivo none none 0) =
      (sucessor (Nodo.mk objetivo none none 0).estado).map
        (fun p => Nodo.mk p.2 (some (Nodo.mk objetivo none none 0)) (some p.1)
          ((Nodo.mk objetivo none none 0).custo + 1)) ∧
    ∀ c ∈ expande (Nodo.mk objetivo none none 0),
      c.custo = (Nodo.mk objetivo none none 0).custo + 1 ∧
      c.pai = some (Nodo.mk objetivo none none 0) ∧
      ∃ a, c.acao = some a ∧
        (a, c.estado) ∈ sucessor (Nodo.mk objetivo none none 0).estado) :=
  ⟨by decide, claim_C6_expande_amended (Nodo.mk objetivo none none 0) (by decide)⟩

/-! ### Heuristic lemmas -/

theorem foldl_add_range (f : ℕ → ℕ) (n : ℕ) :
    ∀ acc : ℕ, (List.range n).foldl (fun d i => d + f i) acc = acc + ∑ i ∈ Finset.range n, f i := by
  induction n with
  | zero => intro acc; simp
  | succ m ih =>
    intro acc
    rw [List.range_succ, List.foldl_append, ih acc, Finset.sum_range_succ]
    simp [Nat.add_assoc]

theorem hamming_eq_sum (l : List Char) :
    hamming_heuristica l = ∑ i ∈ Finset.range 9,
      (if nth l i ≠ nth objetivo i ∧ nth l i ≠ '_' then 1 else 0) := by
  unfold hamming_heuristica
  have hfun : (fun (d i : ℕ) =>
        if nth l i ≠ nth objetivo i ∧ nth l i ≠ '_' then d + 1 else d)
      = (fun d i => d + if nth l i ≠ nth objetivo i ∧ nth l i ≠ '_' then 1 else 0) := by
    funext d i
    by_cases h : nth l i ≠ nth objetivo i ∧ nth l i ≠ '_' <;> simp [h]
  rw [hfun, foldl_add_range]
  simp

theorem manhattan_eq_sum (l : List Char) :
    manhattan_heuristica l = ∑ i ∈ Finset.range 9,
      (if nth l i ≠ '_' then
        (((objetivo.indexOf (nth l i) : ℕ) : ℤ).fdiv 3 - (i : ℤ).fdiv 3).natAbs +
        (((objetivo.indexOf (nth l i) : ℕ) : ℤ).emod 3 - (i : ℤ).emod 3).natAbs
      else 0) := by
  unfold manhattan_heuristica
  have hfun : (fun (d i : ℕ) =>
        if nth l i ≠ '_' then
          d + (((objetivo.indexOf (nth l i) : ℕ) : ℤ).fdiv 3 - (i : ℤ).fdiv 3).natAbs
            + (((objetivo.indexOf (nth l i) : ℕ) : ℤ).emod 3 - (i : ℤ).emod 3).natAbs
        else d)
      = (fun d i => d + if nth l i ≠ '_' then
          (((objetivo.indexOf (nth l i) : ℕ) : ℤ).fdiv 3 - (i : ℤ).fdiv 3).natAbs +
          (((objetivo.indexOf (nth l i) : ℕ) : ℤ).emod 3 - (i : ℤ).emod 3).natAbs
        else 0) := by
    funext d i
    by_cases h : nth l i ≠ '_' <;> simp [h, Nat.add_assoc]
  rw [hfun, foldl_add_range]
  simp

theorem nth_mem {l : List Char} {i : ℕ} (hi : i < l.length) : nth l i ∈ l := by
  rw [nth_eq_getElem l i hi]
  exact List.getElem_mem hi

theorem indexOf_objetivo_facts {c : Char} (hc : c ∈ objetivo) :
    objetivo.indexOf c < 9 ∧ nth objetivo (objetivo.indexOf c) = c := by
  have hlt : objetivo.indexOf c < objetivo.length := List.indexOf_lt_length.mpr hc
  constructor
  · simpa using hlt
  · rw [nth_eq_getElem objetivo _ hlt]
    exact List.getElem_indexOf hlt

theorem manhattan_term_pos {l : List Char} {i : ℕ} (hl : BemFormado l) (hi : i < 9)
    (hne : nth l i ≠ nth objetivo i) (hnb : nth l i ≠ '_') :
    1 ≤ (((objetivo.indexOf (nth l i) : ℕ) : ℤ).fdiv 3 - (i : ℤ).fdiv 3).natAbs +
        (((objetivo.indexOf (nth l i) : ℕ) : ℤ).emod 3 - (i : ℤ).emod 3).natAbs := by
  have hlen := bemFormado_length hl
  have hmem : nth l i ∈ objetivo := hl.mem_iff.mp (nth_mem (by omega))
  obtain ⟨hklt, hk⟩ := indexOf_objetivo_facts hmem
  set k := objetivo.indexOf (nth l i) with hkdef
  have hki : k ≠ i := by
    intro h
    rw [h] at hk
    exact hne hk.symm
  have hfd1 : ((k : ℕ) : ℤ).fdiv 3 = ((k : ℕ) : ℤ) / 3 := Int.fdiv_eq_ediv _ (by norm_num)
  have hfd2 : ((i : ℕ) : ℤ).fdiv 3 = ((i : ℕ) : ℤ) / 3 := Int.fdiv_eq_ediv _ (by norm_num)
  rw [hfd1, hfd2]
  have h1 : ((k : ℕ) : ℤ).emod 3 = ((k : ℕ) : ℤ) % 3 := rfl
  have h2 : ((i : ℕ) : ℤ).emod 3 = ((i : ℕ) : ℤ) % 3 := rfl
  rw [h1, h2]
  omega

theorem manhattan_ge_hamming {l : List Char} (hl : BemFormado l) :
    hamming_heuristica l ≤ manhattan_heuristica l := by
  rw [hamming_eq_sum, manhattan_eq_sum]
  apply Finset.sum_le_sum
  intro i hi
  have hi9 : i < 9 := Finset.mem_range.mp hi
  by_cases hA : nth l i ≠ nth objetivo i ∧ nth l i ≠ '_'
  · rw [if_pos hA, if_pos hA.2]
    exact manhattan_term_pos hl hi9 hA.1 hA.2
  · rw [if_neg hA]
    exact Nat.zero_le _

theorem exists_mismatch {l : List Char} (hlen : l.length = 9) (hne : l ≠ objetivo) :
    ∃ i, i < 9 ∧ nth l i ≠ nth objetivo i := by
  by_contra hcon
  push_neg at hcon
  apply hne
  apply List.ext_getElem (by simp [hlen, objetivo])
  intro i h1 h2
  have h9 : i < 9 := by omega
  have heqi := hcon i h9
  rwa [nth_eq_getElem l i (by omega), nth_eq_getElem objetivo i (by simpa using h2)] at heqi

theorem hamming_pos {l : List Char} (hl : BemFormado l) (hne : l ≠ objetivo) :
    0 < hamming_heuristica l := by
  have hlen := bemFormado_length hl
  obtain ⟨i, hi9, hmis⟩ := exists_mismatch hlen hne
  obtain ⟨b, hb9, hblank, huniq⟩ := bemFormado_blank hl
  -- choose a mismatch index whose character is not the blank
  have hterm : ∃ j, j < 9 ∧ nth l j ≠ nth objetivo j ∧ nth l j ≠ '_' := by
    by_cases hib : nth l i = '_'
    · have hbi : i = b := huniq i hi9 hib
      have hi8 : i ≠ 8 := by
        intro h
        rw [h] at hmis hib
        exact hmis (by rw [hib]; rfl)
      have h8 : nth l 8 ≠ '_' := by
        intro h8b
        exact hi8 (hbi.trans (huniq 8 (by omega) h8b).symm)
      refine ⟨8, by omega, ?_, h8⟩
      intro h
      exact h8 (by rw [h]; rfl)
    · exact ⟨i, hi9, hmis, hib⟩
  obtain ⟨j, hj9, hjm, hjb⟩ := hterm
  rw [hamming_eq_sum]
  have hle : (if nth l j ≠ nth objetivo j ∧ nth l j ≠ '_' then 1 else 0) ≤
      ∑ i ∈ Finset.range 9, (if nth l i ≠ nth objetivo i ∧ nth l i ≠ '_' then 1 else 0) :=
    @Finset.single_le_sum ℕ ℕ _
      (fun i => if nth l i ≠ nth objetivo i ∧ nth l i ≠ '_' then 1 else 0)
      (Finset.range 9) (fun _ _ => Nat.zero_le _) j (Finset.mem_range.mpr hj9)
  rw [if_pos ⟨hjm, hjb⟩] at hle
  omega

/-- Claim C7: both heuristics vanish on the goal, are strictly positive on
every well-formed non-goal state, and Manhattan dominates Hamming on every
well-formed state. -/
theorem claim_C7_heuristicas :
    hamming_heuristica objetivo = 0 ∧ manhattan_heuristica objetivo = 0 ∧
    (∀ l : List Char, BemFormado l → l ≠ objetivo →
      0 < hamming_heuristica l ∧ 0 < manhattan_heuristica l) ∧
    (∀ l : List Char, BemFormado l → hamming_heuristica l ≤ manhattan_heuristica l) := by
  refine ⟨by decide, by decide, ?_, fun l hl => manhattan_ge_hamming hl⟩
  intro l hl hne
  have h1 := hamming_pos hl hne
  have h2 := manhattan_ge_hamming hl
  exact ⟨h1, by omega⟩

/-- Claim C7, witness: evaluation at the well-formed non-goal state
`"21345678_"`. -/
theorem claim_C7_witness :
    BemFormado ['2', '1', '3', '4', '5', '6', '7', '8', '_'] ∧
    ['2', '1', '3', '4', '5', '6', '7', '8', '_'] ≠ objetivo ∧
    0 < hamming_heuristica ['2', '1', '3', '4', '5', '6', '7', '8', '_'] ∧
    0 < manhattan_heuristica ['2', '1', '3', '4', '5', '6', '7', '8', '_'] ∧
    hamming_heuristica ['2', '1', '3', '4', '5', '6', '7', '8', '_'] ≤
      manhattan_heuristica ['2', '1', '3', '4', '5', '6', '7', '8', '_'] := by
  refine ⟨by decide, by decide, ?_, ?_, ?_⟩
  · exact (claim_C7_heuristicas.2.2.1 _ (by decide) (by decide)).1
  · exact (claim_C7_heuristicas.2.2.1 _ (by decide) (by decide)).2
  · exact claim_C7_heuristicas.2.2.2 _ (by decide)

/-! ### Heap order and generic list lemmas -/

theorem chaveLe_refl (x : ℕ × Nodo) : chaveLe x x := Or.inr ⟨rfl, le_refl _⟩

theorem chaveLe_trans {x y z : ℕ × Nodo} (h1 : chaveLe x y) (h2 : chaveLe y z) :
    chaveLe x z := by
  unfold chaveLe at h1 h2 ⊢
  omega

theorem chaveLe_total (x y : ℕ × Nodo) : chaveLe x y ∨ chaveLe y x := by
  unfold chaveLe
  omega

theorem ltEntry_true_iff {x y : ℕ × Nodo} : ltEntry x y = true ↔ ¬ chaveLe y x := by
  simp only [ltEntry, nodoLt, chaveLe, Bool.or_eq_true, Bool.and_eq_true, beq_iff_eq,
    decide_eq_true_eq]
  omega

theorem ltEntry_false_iff {x y : ℕ × Nodo} : ltEntry x y = false ↔ chaveLe y x := by
  rw [← Bool.not_eq_true, ltEntry_true_iff, not_not]

theorem chaveLt_of_ltEntry {x y : ℕ × Nodo} (h : ltEntry x y = true) : chaveLt x y := by
  rw [ltEntry_true_iff] at h
  unfold chaveLe at h
  unfold chaveLt
  omega

theorem chaveLe_of_chaveLt {x y : ℕ × Nodo} (h : chaveLt x y) : chaveLe x y := by
  unfold chaveLt at h
  unfold chaveLe
  omega

theorem getD_set_self' {α : Type} (d : α) (l : List α) (i : ℕ) (x : α) (h : i < l.length) :
    (l.set i x).getD i d = x := by
  rw [List.getD_eq_getElem?_getD, List.getElem?_set_eq_of_lt x h, Option.getD_some]

theorem getD_set_ne' {α : Type} (d : α) (l : List α) {i j : ℕ} (x : α) (h : i ≠ j) :
    (l.set i x).getD j d = l.getD j d := by
  rw [List.getD_eq_getElem?_getD, List.getElem?_set_ne h, ← List.getD_eq_getElem?_getD]

theorem set_getD_self {α : Type} (d : α) : ∀ (l : List α) (i : ℕ), i < l.length →
    l.set i (l.getD i d) = l
  | [], i, h => by simp at h
  | a :: t, 0, _ => by simp
  | a :: t, i + 1, h => by
    have := set_getD_self d t i (by simpa using h)
    simp only [List.getD_cons_succ, List.set_cons_succ, this]

theorem perm_cons_setG {α : Type} (d : α) : ∀ (k : ℕ) (t : List α) (a : α), k < t.length →
    List.Perm (t.getD k d :: t.set k a) (a :: t)
  | 0, b :: s, a, _ => by
    simpa using List.Perm.swap a b s
  | k + 1, b :: s, a, h => by
    have hk : k < s.length := by simpa using h
    have ih := perm_cons_setG d k s a hk
    simp only [List.getD_cons_succ, List.set_cons_succ]
    exact ((List.Perm.swap b (s.getD k d) (s.set k a)).trans (ih.cons b)).trans
      (List.Perm.swap a b s)

theorem perm_cons_set2G {α : Type} : ∀ (i : ℕ) (t : List α) (a x : α), i < t.length →
    List.Perm (x :: t.set i a) (a :: t.set i x)
  | 0, b :: s, a, x, _ => by
    simpa using List.Perm.swap a x s
  | i + 1, b :: s, a, x, h => by
    have hi : i < s.length := by simpa using h
    have ih := perm_cons_set2G i s a x hi
    simp only [List.set_cons_succ]
    exact ((List.Perm.swap b x (s.set i a)).trans (ih.cons b)).trans
      (List.Perm.swap a b (s.set i x))

theorem set_set_permG {α : Type} (d : α) : ∀ (l : List α) (i j : ℕ) (x : α),
    i < l.length → j < l.length → i ≠ j →
    List.Perm ((l.set i (l.getD j d)).set j x) (l.set i x)
  | [], i, j, x, hi, _, _ => by simp at hi
  | a :: t, 0, 0, x, _, _, hne => absurd rfl hne
  | a :: t, 0, j + 1, x, hi, hj, _ => by
    have hjt : j < t.length := by simpa using hj
    simp only [List.getD_cons_succ, List.set_cons_zero, List.set_cons_succ]
    exact perm_cons_setG d j t x hjt
  | a :: t, i + 1, 0, x, hi, _, _ => by
    have hit : i < t.length := by simpa using hi
    simp only [List.getD_cons_zero, List.set_cons_succ, List.set_cons_zero]
    exact perm_cons_set2G i t a x hit
  | a :: t, i + 1, j + 1, x, hi, hj, hne => by
    have hit : i < t.length := by simpa using hi
    have hjt : j < t.length := by simpa using hj
    simp only [List.getD_cons_succ, List.set_cons_succ]
    exact (set_set_permG d t i j x hit hjt (by omega)).cons a

theorem set_append_last {α : Type} : ∀ (l : List α) (x : α),
    (l ++ [x]).set l.length x = l ++ [x]
  | [], x => rfl
  | a :: t, x => by
    simp only [List.cons_append, List.length_cons, List.set_cons_succ]
    rw [set_append_last t x]

/-! ### Verification of the CPython heapq embedding -/

theorem siftdownAux_perm : ∀ (fuel : ℕ) (l : List (ℕ × Nodo)) (startpos pos : ℕ)
    (x : ℕ × Nodo), pos < l.length →
    List.Perm (siftdownAux fuel l startpos pos x) (l.set pos x)
  | 0, l, _, pos, x, _ => List.Perm.refl _
  | fuel + 1, l, startpos, pos, x, hpos => by
    simp only [siftdownAux]
    by_cases h1 : startpos < pos
    · rw [if_pos h1]
      by_cases h2 : ltEntry x (l.getD ((pos - 1) / 2) default) = true
      · rw [if_pos h2]
        have hpp : (pos - 1) / 2 < l.length := by omega
        exact (siftdownAux_perm fuel _ startpos _ x (by simpa using hpp)).trans
          (set_set_permG default l pos ((pos - 1) / 2) x hpos hpp (by omega))
      · rw [if_neg h2]
    · rw [if_neg h1]

theorem siftdownAux_length : ∀ (fuel : ℕ) (l : List (ℕ × Nodo)) (startpos pos : ℕ)
    (x : ℕ × Nodo), (siftdownAux fuel l startpos pos x).length = l.length
  | 0, l, _, pos, x => by simp [siftdownAux]
  | fuel + 1, l, startpos, pos, x => by
    simp only [siftdownAux]
    by_cases h1 : startpos < pos
    · rw [if_pos h1]
      by_cases h2 : ltEntry x (l.getD ((pos - 1) / 2) default) = true
      · rw [if_pos h2]
        rw [siftdownAux_length fuel _ startpos _ x]
        simp
      · rw [if_neg h2]; simp
    · rw [if_neg h1]; simp

theorem siftdownAux_heapInv : ∀ (fuel : ℕ) (l : List (ℕ × Nodo)) (pos : ℕ) (x : ℕ × Nodo),
    pos < fuel → pos < l.length → QuaseHeap l pos x →
    HeapInv (siftdownAux fuel l 0 pos x)
  | 0, _, pos, _, hf, _, _ => absurd hf (by omega)
  | fuel + 1, l, pos, x, hf, hpos, hq => by
    obtain ⟨hq1, hq2⟩ := hq
    simp only [siftdownAux]
    by_cases h1 : 0 < pos
    · rw [if_pos h1]
      have hpplt : (pos - 1) / 2 < pos := by omega
      have hpplen : (pos - 1) / 2 < l.length := by omega
      by_cases h2 : ltEntry x (l.getD ((pos - 1) / 2) default) = true
      · rw [if_pos h2]
        have hlt : chaveLt x (l.getD ((pos - 1) / 2) default) := chaveLt_of_ltEntry h2
        apply siftdownAux_heapInv fuel _ ((pos - 1) / 2) x (by omega) (by simpa using hpplen)
        -- abbreviations for the two virtual arrays
        have hlen' : (l.set pos (l.getD ((pos - 1) / 2) default)).length = l.length := by simp
        have hvk : ∀ k, pos ≠ k → (l.set pos x).getD k default = l.getD k default :=
          fun k hk => getD_set_ne' default l x hk
        have hvpos : (l.set pos x).getD pos default = x := getD_set_self' default l pos x hpos
        have hv'pp : ((l.set pos (l.getD ((pos - 1) / 2) default)).set ((pos - 1) / 2) x).getD
            ((pos - 1) / 2) default = x :=
          getD_set_self' default _ _ x (by omega)
        have hv'pos : ((l.set pos (l.getD ((pos - 1) / 2) default)).set ((pos - 1) / 2) x).getD
            pos default = l.getD ((pos - 1) / 2) default := by
          rw [getD_set_ne' default _ x (by omega),
            getD_set_self' default l pos _ hpos]
        have hv'k : ∀ k, k ≠ (pos - 1) / 2 → k ≠ pos →
            ((l.set pos (l.getD ((pos - 1) / 2) default)).set ((pos - 1) / 2) x).getD k default
              = (l.set pos x).getD k default := by
          intro k hk1 hk2
          rw [getD_set_ne' default _ x (fun h => hk1 h.symm),
            getD_set_ne' default l _ (fun h => hk2 h.symm),
            getD_set_ne' default l x (fun h => hk2 h.symm)]
        constructor
        · -- edges of the new virtual array, child ≠ new pos
          intro j hj0 hjlen hjpp
          rw [hlen'] at hjlen
          by_cases hjpos : j = pos
          · subst hjpos
            have hpar : (j - 1) / 2 = (j - 1) / 2 := rfl
            rw [hv'pos, hv'pp]
            exact chaveLe_of_chaveLt hlt
          · -- j is not pos and not pp
            have hvj : ((l.set pos (l.getD ((pos - 1) / 2) default)).set
                ((pos - 1) / 2) x).getD j default = (l.set pos x).getD j default :=
              hv'k j hjpp hjpos
            by_cases hpar : (j - 1) / 2 = pos
            · -- parent of j is pos: bridge hypothesis
              rw [hpar, hv'pos, hvj]
              have := hq2 h1 j hjlen (by omega)
              rw [hvk ((pos - 1) / 2) (by omega)] at this
              exact this
            · by_cases hpar2 : (j - 1) / 2 = (pos - 1) / 2
              · -- parent of j is pp: new value x there, use transitivity
                rw [hpar2, hv'pp, hvj]
                have hedge := hq1 j hj0 hjlen hjpos
                rw [hpar2] at hedge
                rw [hvk ((pos - 1) / 2) (by omega)] at hedge
                exact chaveLe_trans (chaveLe_of_chaveLt hlt) hedge
              · -- edge untouched
                rw [hv'k ((j - 1) / 2) hpar2 hpar, hvj]
                exact hq1 j hj0 hjlen hjpos
        · -- bridge for the new pos = pp
          intro hpp0 j hjlen hjchild
          rw [hlen'] at hjlen
          have hgoalL : ((l.set pos (l.getD ((pos - 1) / 2) default)).set
              ((pos - 1) / 2) x).getD (((pos - 1) / 2 - 1) / 2) default
              = l.getD (((pos - 1) / 2 - 1) / 2) default := by
            rw [hv'k (((pos - 1) / 2 - 1) / 2) (by omega) (by omega),
              hvk (((pos - 1) / 2 - 1) / 2) (by omega)]
          rw [hgoalL]
          by_cases hjpos : j = pos
          · rw [hjpos, hv'pos]
            have hedge := hq1 ((pos - 1) / 2) hpp0 hpplen (by omega)
            rw [hvk ((pos - 1) / 2) (by omega),
              hvk (((pos - 1) / 2 - 1) / 2) (by omega)] at hedge
            exact hedge
          · have hjne : j ≠ (pos - 1) / 2 := by omega
            rw [hv'k j hjne hjpos, hvk j (fun h => hjpos h.symm)]
            have hedge1 := hq1 j (by omega) hjlen hjpos
            rw [hjchild] at hedge1
            rw [hvk ((pos - 1) / 2) (by omega), hvk j (fun h => hjpos h.symm)] at hedge1
            have hedge2 := hq1 ((pos - 1) / 2) hpp0 hpplen (by omega)
            rw [hvk ((pos - 1) / 2) (by omega),
              hvk (((pos - 1) / 2 - 1) / 2) (by omega)] at hedge2
            exact chaveLe_trans hedge2 hedge1
      · rw [if_neg h2]
        have hle : chaveLe (l.getD ((pos - 1) / 2) default) x :=
          ltEntry_false_iff.mp (by simpa using h2)
        intro j hj0 hjlen
        have hjlen' : j < l.length := by simpa using hjlen
        by_cases hjp : j = pos
        · rw [hjp, getD_set_self' default l pos x hpos,
            getD_set_ne' default l x (by omega)]
          exact hle
        · exact hq1 j hj0 hjlen' hjp
    · rw [if_neg h1]
      have hpos0 : pos = 0 := by omega
      intro j hj0 hjlen
      have hjlen' : j < l.length := by simpa using hjlen
      exact hq1 j hj0 hjlen' (by omega)

theorem heappush_perm (l : List (ℕ × Nodo)) (x : ℕ × Nodo) :
    List.Perm (heappush l x) (x :: l) := by
  show List.Perm
    (siftdownAux (l ++ [x]).length (l ++ [x]) 0 ((l ++ [x]).length - 1) x) (x :: l)
  have h1 : (l ++ [x]).length - 1 = l.length := by simp
  rw [h1]
  have h2 := siftdownAux_perm (l ++ [x]).length (l ++ [x]) 0 l.length x (by simp)
  rw [set_append_last] at h2
  exact h2.trans (List.perm_append_singleton x l)

theorem heappush_length (l : List (ℕ × Nodo)) (x : ℕ × Nodo) :
    (heappush l x).length = l.length + 1 := by
  show (siftdownAux (l ++ [x]).length (l ++ [x]) 0 ((l ++ [x]).length - 1) x).length
    = l.length + 1
  rw [siftdownAux_length]
  simp

theorem heappush_heapInv {l : List (ℕ × Nodo)} (h : HeapInv l) (x : ℕ × Nodo) :
    HeapInv (heappush l x) := by
  show HeapInv (siftdownAux (l ++ [x]).length (l ++ [x]) 0 ((l ++ [x]).length - 1) x)
  have h1 : (l ++ [x]).length - 1 = l.length := by simp
  rw [h1]
  apply siftdownAux_heapInv _ _ _ _ (by simp) (by simp)
  constructor
  · intro j hj0 hjlen hjpos
    rw [set_append_last]
    have hjlen2 : j < l.length + 1 := by simpa using hjlen
    have hjl : j < l.length := by omega
    rw [List.getD_append l [x] default j hjl,
      List.getD_append l [x] default ((j - 1) / 2) (by omega)]
    exact h j hj0 hjl
  · intro hpos0 j hjlen hjchild
    exfalso
    have hjlen2 : j < l.length + 1 := by simpa using hjlen
    omega

theorem siftupAux_spec : ∀ (fuel : ℕ) (L : List (ℕ × Nodo)) (pos : ℕ),
    L.length - pos ≤ fuel → pos < L.length → HoleInv L pos →
    ∃ M p, siftupAux fuel L pos L.length = (M, p) ∧
      M.length = L.length ∧ pos ≤ p ∧ p < L.length ∧ ¬ (2 * p + 1 < L.length) ∧
      HoleInv M p ∧
      ∀ x, List.Perm (M.set p x) (L.set pos x)
  | 0, L, pos, hfuel, hpos, _ => absurd hfuel (by omega)
  | fuel + 1, L, pos, hfuel, hpos, hhole => by
    obtain ⟨hh1, hh2⟩ := hhole
    simp only [siftupAux]
    by_cases hc : 2 * pos + 1 < L.length
    case neg =>
      rw [if_neg hc]
      exact ⟨L, pos, rfl, rfl, le_refl _, hpos, hc, ⟨hh1, hh2⟩, fun x => List.Perm.refl _⟩
    case pos =>
      rw [if_pos hc]
      -- the chosen child cp
      set cp := if 2 * pos + 1 + 1 < L.length ∧
          ¬ ltEntry (L.getD (2 * pos + 1) default) (L.getD (2 * pos + 1 + 1) default) = true
        then 2 * pos + 1 + 1 else 2 * pos + 1 with hcpdef
      have hcp_cases : cp = 2 * pos + 1 ∨ cp = 2 * pos + 2 := by
        rw [hcpdef]
        by_cases hsel : 2 * pos + 1 + 1 < L.length ∧
            ¬ ltEntry (L.getD (2 * pos + 1) default) (L.getD (2 * pos + 1 + 1) default) = true
        · rw [if_pos hsel]; omega
        · rw [if_neg hsel]; omega
      have hcplt : cp < L.length := by
        rw [hcpdef]
        by_cases hsel : 2 * pos + 1 + 1 < L.length ∧
            ¬ ltEntry (L.getD (2 * pos + 1) default) (L.getD (2 * pos + 1 + 1) default) = true
        · rw [if_pos hsel]; omega
        · rw [if_neg hsel]; omega
      have hcpgt : pos < cp := by omega
      -- the chosen child is no larger than its (valid) sibling
      have hsmall : ∀ j, 0 < j → j < L.length → (j - 1) / 2 = pos → j ≠ cp →
          chaveLe (L.getD cp default) (L.getD j default) := by
        intro j hj0 hjlen hjch hjne
        rw [hcpdef] at hjne ⊢
        by_cases hsel : 2 * pos + 1 + 1 < L.length ∧
            ¬ ltEntry (L.getD (2 * pos + 1) default) (L.getD (2 * pos + 1 + 1) default) = true
        · rw [if_pos hsel] at hjne ⊢
          have hj : j = 2 * pos + 1 := by omega
          rw [hj]
          have hfalse : ltEntry (L.getD (2 * pos + 1) default)
              (L.getD (2 * pos + 1 + 1) default) = false := by
            simpa using hsel.2
          exact ltEntry_false_iff.mp hfalse
        · rw [if_neg hsel] at hjne ⊢
          have hj : j = 2 * pos + 2 := by omega
          have hj2 : 2 * pos + 1 + 1 < L.length := by omega
          rw [hj]
          rcases not_and_or.mp hsel with h | h
          · exact absurd hj2 h
          · rw [not_not] at h
            exact chaveLe_of_chaveLt (chaveLt_of_ltEntry h)
      -- step to the new list and position
      have hlen' : (L.set pos (L.getD cp default)).length = L.length := by simp
      have hfuel' : (L.set pos (L.getD cp default)).length - cp ≤ fuel := by
        rw [hlen']; omega
      have hL'k : ∀ k, k ≠ pos →
          (L.set pos (L.getD cp default)).getD k default = L.getD k default :=
        fun k hk => getD_set_ne' default L _ (fun h => hk h.symm)
      have hL'pos : (L.set pos (L.getD cp default)).getD pos default = L.getD cp default :=
        getD_set_self' default L pos _ hpos
      have hhole' : HoleInv (L.set pos (L.getD cp default)) cp := by
        constructor
        · intro j hj0 hjlen hjcp hjpar
          rw [hlen'] at hjlen
          by_cases hjpos : j = pos
          · -- parent edge into pos (which now holds the old child value)
            have hpos0 : 0 < pos := by omega
            rw [hjpos, hL'pos, hL'k ((pos - 1) / 2) (by omega)]
            exact hh2 hpos0 cp hcplt (by omega)
          · by_cases hpar : (j - 1) / 2 = pos
            · -- sibling of cp
              rw [hL'k j hjpos, hpar, hL'pos]
              exact hsmall j hj0 hjlen hpar hjcp
            · rw [hL'k j hjpos, hL'k ((j - 1) / 2) hpar]
              exact hh1 j hj0 hjlen hjpos hpar
        · intro hcp0 j hjlen hjch
          rw [hlen'] at hjlen
          have hcppar : (cp - 1) / 2 = pos := by omega
          have hjgt : cp < j := by omega
          rw [hcppar, hL'pos, hL'k j (by omega), ← hjch]
          exact hh1 j (by omega) hjlen (by omega) (by omega)
      obtain ⟨M, p, heq, hMlen, hple, hplt, hpend, hMhole, hMperm⟩ :=
        siftupAux_spec fuel (L.set pos (L.getD cp default)) cp hfuel'
          (by rw [hlen']; exact hcplt) hhole'
      rw [hlen'] at heq hMlen hplt hpend
      refine ⟨M, p, heq, hMlen, by omega, hplt, hpend, hMhole, ?_⟩
      intro x
      exact (hMperm x).trans (set_set_permG default L pos cp x hpos hcplt (by omega))

theorem siftupAux_perm : ∀ (fuel : ℕ) (L : List (ℕ × Nodo)) (pos : ℕ),
    L.length - pos ≤ fuel → pos < L.length →
    ∃ M p, siftupAux fuel L pos L.length = (M, p) ∧
      M.length = L.length ∧ p < L.length ∧
      ∀ x, List.Perm (M.set p x) (L.set pos x)
  | 0, L, pos, hfuel, hpos => absurd hfuel (by omega)
  | fuel + 1, L, pos, hfuel, hpos => by
    simp only [siftupAux]
    by_cases hc : 2 * pos + 1 < L.length
    case neg =>
      rw [if_neg hc]
      exact ⟨L, pos, rfl, rfl, hpos, fun x => List.Perm.refl _⟩
    case pos =>
      rw [if_pos hc]
      set cp := if 2 * pos + 1 + 1 < L.length ∧
          ¬ ltEntry (L.getD (2 * pos + 1) default) (L.getD (2 * pos + 1 + 1) default) = true
        then 2 * pos + 1 + 1 else 2 * pos + 1 with hcpdef
      have hcplt : cp < L.length := by
        rw [hcpdef]
        by_cases hsel : 2 * pos + 1 + 1 < L.length ∧
            ¬ ltEntry (L.getD (2 * pos + 1) default) (L.getD (2 * pos + 1 + 1) default) = true
        · rw [if_pos hsel]; omega
        · rw [if_neg hsel]; omega
      have hcpgt : pos < cp := by
        rw [hcpdef]
        by_cases hsel : 2 * pos + 1 + 1 < L.length ∧
            ¬ ltEntry (L.getD (2 * pos + 1) default) (L.getD (2 * pos + 1 + 1) default) = true
        · rw [if_pos hsel]; omega
        · rw [if_neg hsel]; omega
      have hlen' : (L.set pos (L.getD cp default)).length = L.length := by simp
      obtain ⟨M, p, heq, hMlen, hplt, hMperm⟩ :=
        siftupAux_perm fuel (L.set pos (L.getD cp default)) cp
          (by rw [hlen']; omega) (by rw [hlen']; exact hcplt)
      rw [hlen'] at heq hMlen hplt
      refine ⟨M, p, heq, hMlen, hplt, ?_⟩
      intro x
      exact (hMperm x).trans (set_set_permG default L pos cp x hpos hcplt (by omega))

theorem heapInv_le_root {l : List (ℕ × Nodo)} (h : HeapInv l) :
    ∀ j, j < l.length → chaveLe (l.getD 0 default) (l.getD j default) := by
  intro j
  induction j using Nat.strong_induction_on with
  | _ j ih =>
    intro hj
    by_cases h0 : j = 0
    · rw [h0]
      exact chaveLe_refl _
    · exact chaveLe_trans (ih ((j - 1) / 2) (by omega) (by omega)) (h j (by omega) hj)

theorem siftup_perm {l0 : List (ℕ × Nodo)} (hne : 0 < l0.length) :
    List.Perm (siftup l0 0) l0 ∧ (siftup l0 0).length = l0.length := by
  obtain ⟨M, p, heq, hMlen, hplt, hMperm⟩ :=
    siftupAux_perm l0.length l0 0 (by omega) hne
  constructor
  · show List.Perm (siftdownAux l0.length
        ((siftupAux l0.length l0 0 l0.length).1.set (siftupAux l0.length l0 0 l0.length).2
          (l0.getD 0 default)) 0 (siftupAux l0.length l0 0 l0.length).2 (l0.getD 0 default)) l0
    rw [heq]
    have hperm := siftdownAux_perm l0.length (M.set p (l0.getD 0 default)) 0 p
      (l0.getD 0 default) (by rw [List.length_set, hMlen]; exact hplt)
    rw [List.set_set] at hperm
    exact hperm.trans ((hMperm (l0.getD 0 default)).trans
      (by rw [set_getD_self default l0 0 hne]))
  · show (siftdownAux l0.length
        ((siftupAux l0.length l0 0 l0.length).1.set (siftupAux l0.length l0 0 l0.length).2
          (l0.getD 0 default)) 0 (siftupAux l0.length l0 0 l0.length).2
          (l0.getD 0 default)).length = l0.length
    rw [heq, siftdownAux_length, List.length_set, hMlen]

theorem siftup_heapInv {l0 : List (ℕ × Nodo)} (hne : 0 < l0.length)
    (hhole : HoleInv l0 0) : HeapInv (siftup l0 0) := by
  obtain ⟨M, p, heq, hMlen, hple, hplt, hpend, hMhole, hMperm⟩ :=
    siftupAux_spec l0.length l0 0 (by omega) hne hhole
  show HeapInv (siftdownAux l0.length
    ((siftupAux l0.length l0 0 l0.length).1.set (siftupAux l0.length l0 0 l0.length).2
      (l0.getD 0 default)) 0 (siftupAux l0.length l0 0 l0.length).2 (l0.getD 0 default))
  rw [heq]
  obtain ⟨hM1, hM2⟩ := hMhole
  apply siftdownAux_heapInv l0.length _ p (l0.getD 0 default) hplt
    (by rw [List.length_set, hMlen]; exact hplt)
  constructor
  · intro j hj0 hjlen hjp
    rw [List.length_set, hMlen] at hjlen
    rw [List.set_set]
    have hjpar : (j - 1) / 2 ≠ p := by omega
    rw [getD_set_ne' default M _ (fun hh => hjp hh.symm),
      getD_set_ne' default M _ (fun hh => hjpar hh.symm)]
    exact hM1 j hj0 (by omega) hjp hjpar
  · intro hp0 j hjlen hjch
    rw [List.length_set, hMlen] at hjlen
    exfalso
    omega

theorem getD_dropLast {l : List (ℕ × Nodo)} {j : ℕ} (hj : j < l.length - 1) :
    l.dropLast.getD j default = l.getD j default := by
  have hj2 : j < l.dropLast.length := by simp; omega
  have hj3 : j < l.length := by omega
  rw [List.getD_eq_getElem?_getD, List.getElem?_eq_getElem hj2, Option.getD_some,
    List.getElem_dropLast, List.getD_eq_getElem?_getD, List.getElem?_eq_getElem hj3,
    Option.getD_some]

theorem heappop_spec (l : List (ℕ × Nodo)) (hne : l ≠ []) :
    ∃ r rest, heappop l = some (r, rest) ∧ List.Perm l (r :: rest) ∧
      rest.length = l.length - 1 ∧
      (HeapInv l → HeapInv rest ∧ ∀ y ∈ l, chaveLe r y) := by
  match l, hne with
  | [x], _ =>
    refine ⟨x, [], rfl, List.Perm.refl _, rfl, fun _ => ⟨?_, ?_⟩⟩
    · intro j hj0 hjlen
      simp at hjlen
    · intro y hy
      have hyx : y = x := by simpa using hy
      rw [hyx]
      exact chaveLe_refl _
  | x :: x2 :: xs, _ =>
    have heqpop : heappop (x :: x2 :: xs) =
        some (x, siftup ((x :: (x2 :: xs).dropLast).set 0
          ((x :: x2 :: xs).getLast (by simp))) 0) := rfl
    have hl0 : (x :: (x2 :: xs).dropLast).set 0 ((x :: x2 :: xs).getLast (by simp))
        = (x :: x2 :: xs).getLast (by simp) :: (x2 :: xs).dropLast := by
      simp
    have hpos0 : 0 < ((x :: x2 :: xs).getLast (by simp) :: (x2 :: xs).dropLast).length := by
      simp
    obtain ⟨hsperm, hslen⟩ := siftup_perm hpos0
    have happ : (x2 :: xs).dropLast ++ [(x :: x2 :: xs).getLast (by simp)] = x2 :: xs := by
      have hfull := @List.dropLast_append_getLast _ (x :: x2 :: xs) (by simp)
      simpa using hfull
    refine ⟨x, siftup ((x :: x2 :: xs).getLast (by simp) :: (x2 :: xs).dropLast) 0,
      by rw [heqpop, hl0], ?_, ?_, ?_⟩
    · -- the pop removes one copy of the returned root
      have h1 := hsperm.cons x
      have h2 : List.Perm (x :: x2 :: xs)
          (x :: ((x :: x2 :: xs).getLast (by simp) :: (x2 :: xs).dropLast)) := by
        apply List.Perm.cons x
        have hps := List.perm_append_singleton ((x :: x2 :: xs).getLast (by simp))
          ((x2 :: xs).dropLast)
        rw [happ] at hps
        exact hps
      exact h2.trans h1.symm
    · rw [hslen]
      simp [List.length_dropLast]
    · intro h
      have hforms : (x :: x2 :: xs).getLast (by simp) :: (x2 :: xs).dropLast
          = ((x :: x2 :: xs).dropLast).set 0 ((x :: x2 :: xs).getLast (by simp)) := by
        simp
      constructor
      · apply siftup_heapInv hpos0
        constructor
        · intro j hj0 hjlen hjne hjpar
          have hjlen2 : j < (x :: x2 :: xs).length - 1 := by
            simp only [List.length_cons] at hjlen ⊢
            simp at hjlen
            omega
          have e1 : ((x :: x2 :: xs).getLast (by simp) :: (x2 :: xs).dropLast).getD j default
              = (x :: x2 :: xs).getD j default := by
            rw [hforms, getD_set_ne' default _ _ (by omega), getD_dropLast hjlen2]
          have e2 : ((x :: x2 :: xs).getLast (by simp) :: (x2 :: xs).dropLast).getD
              ((j - 1) / 2) default = (x :: x2 :: xs).getD ((j - 1) / 2) default := by
            rw [hforms, getD_set_ne' default _ _ (by omega), getD_dropLast (by omega)]
          rw [e1, e2]
          exact h j hj0 (by omega)
        · intro h0
          exact absurd h0 (lt_irrefl 0)
      · intro y hy
        obtain ⟨j, hjlen, hjy⟩ := List.getElem_of_mem hy
        have hroot := heapInv_le_root h j hjlen
        have h0 : (x :: x2 :: xs).getD 0 default = x := rfl
        have hj2 : (x :: x2 :: xs).getD j default = y := by
          rw [List.getD_eq_getElem?_getD, List.getElem?_eq_getElem hjlen, Option.getD_some,
            hjy]
        rw [h0, hj2] at hroot
        exact hroot

/-! ### Replay and node soundness -/

theorem map_fst_sucessor_sublist (l : List Char) :
    List.Sublist ((sucessor l).map Prod.fst) ["esquerda", "direita", "acima", "abaixo"] := by
  unfold sucessor
  by_cases h1 : 0 < (rfind l '_').emod 3 <;>
    by_cases h2 : (rfind l '_').emod 3 < 2 <;>
      by_cases h3 : 0 < (rfind l '_').fdiv 3 <;>
        by_cases h4 : (rfind l '_').fdiv 3 < 2 <;>
          simp [h1, h2, h3, h4]

theorem nodup_fst_sucessor (l : List Char) : ((sucessor l).map Prod.fst).Nodup :=
  (map_fst_sucessor_sublist l).nodup (by decide)

theorem find?_key_eq {a : String} {t : List Char} :
    ∀ (L : List (String × List Char)), (L.map Prod.fst).Nodup → (a, t) ∈ L →
      L.find? (fun p => p.1 == a) = some (a, t)
  | [], _, hm => absurd hm (List.not_mem_nil _)
  | p :: rest, hnd, hm => by
    rcases List.mem_cons.mp hm with hp | hrest
    · rw [List.find?_cons, ← hp]
      simp
    · have hnd1 : (p.1 :: rest.map Prod.fst).Nodup := by simpa using hnd
      have hne : p.1 ≠ a := by
        intro hpa
        have h1 : p.1 ∈ rest.map Prod.fst := by
          have ha : a ∈ rest.map Prod.fst := by
            have := List.mem_map_of_mem Prod.fst hrest
            simpa using this
          rw [hpa]
          exact ha
        exact (List.nodup_cons.mp hnd1).1 h1
      rw [List.find?_cons]
      have hbe : (p.1 == a) = false := by simpa using hne
      rw [hbe]
      exact find?_key_eq rest hnd1.of_cons hrest

theorem aplicar_of_mem {l : List Char} {a : String} {t : List Char}
    (h : (a, t) ∈ sucessor l) : aplicar l a = some t := by
  unfold aplicar
  rw [find?_key_eq (sucessor l) (nodup_fst_sucessor l) h]
  rfl

theorem replay_append : ∀ (c1 c2 : List String) (s : List Char),
    replay s (c1 ++ c2) =
      match replay s c1 with
      | some m => replay m c2
      | none => none
  | [], c2, s => rfl
  | a :: resto, c2, s => by
    rcases hap : aplicar s a with _ | t
    · simp only [List.cons_append, replay, hap]
    · simp only [List.cons_append, replay, hap]
      exact replay_append resto c2 t

theorem expande_mem_eq {nodo c : Nodo} (hc : c ∈ expande nodo) :
    ∃ p ∈ sucessor nodo.estado,
      c = Nodo.mk p.2 (some nodo) (some p.1) (nodo.custo + 1) := by
  rcases foldl_expandePasso_mem nodo _ [] c hc with h | ⟨p, hp, hcq⟩
  · exact absurd h (List.not_mem_nil c)
  · exact ⟨p, by simpa using hp, hcq⟩

theorem nodoSane_raiz (s : List Char) : NodoSane s (Nodo.mk s none none 0) := by
  constructor <;> rfl

theorem nodoSane_filho {s : List Char} {nodo c : Nodo} (hs : NodoSane s nodo)
    (hc : c ∈ expande nodo) : NodoSane s c := by
  obtain ⟨p, hp, rfl⟩ := expande_mem_eq hc
  obtain ⟨hreplay, hlen⟩ := hs
  have hrec : reconstruir (Nodo.mk p.2 (some nodo) (some p.1) (nodo.custo + 1))
      = reconstruir nodo ++ [p.1] := rfl
  have happ2 : aplicar nodo.estado p.1 = some p.2 :=
    aplicar_of_mem (show (p.1, p.2) ∈ sucessor nodo.estado from hp)
  constructor
  · show replay s (reconstruir (Nodo.mk p.2 (some nodo) (some p.1) (nodo.custo + 1)))
      = some p.2
    rw [hrec, replay_append, hreplay]
    show replay nodo.estado [p.1] = some p.2
    simp only [replay, happ2]
  · show (reconstruir (Nodo.mk p.2 (some nodo) (some p.1) (nodo.custo + 1))).length
      = nodo.custo + 1
    rw [hrec, List.length_append, hlen]
    rfl

theorem foldl_heappush_mem (h : List Char → ℕ) (E1 : List (List Char)) :
    ∀ (children : List Nodo) (fr : List (ℕ × Nodo)) (e : ℕ × Nodo),
      e ∈ children.foldl
        (fun fr ns => if ns.estado ∈ E1 then fr
          else heappush fr (ns.custo + h ns.estado, ns)) fr →
      e ∈ fr ∨ ∃ ns ∈ children, e = (ns.custo + h ns.estado, ns)
  | [], fr, e, he => Or.inl (by simpa using he)
  | ns :: rest, fr, e, he => by
    rw [List.foldl_cons] at he
    rcases foldl_heappush_mem h E1 rest _ e he with hfr | ⟨ns2, hns2, he2⟩
    · by_cases hin : ns.estado ∈ E1
      · rw [if_pos hin] at hfr
        exact Or.inl hfr
      · rw [if_neg hin] at hfr
        rcases List.mem_cons.mp
            ((heappush_perm fr (ns.custo + h ns.estado, ns)).mem_iff.mp hfr) with h1 | h2
        · exact Or.inr ⟨ns, by simp, h1⟩
        · exact Or.inl h2
    · exact Or.inr ⟨ns2, by simp [hns2], he2⟩

theorem astarLoop_sound (h : List Char → ℕ) :
    ∀ (fuel : ℕ) (F : List (ℕ × Nodo)) (E : List (List Char)) (s : List Char),
      (∀ e ∈ F, NodoSane s e.2) →
      ∀ c, astarLoop h fuel F E = some (some c) → replay s c = some objetivo
  | 0, F, E, s, _, c, hres => by simp [astarLoop] at hres
  | fuel + 1, F, E, s, hsane, c, hres => by
    rw [astarLoop] at hres
    rcases hpop : heappop F with _ | ⟨⟨k, nodo⟩, F1⟩
    · rw [hpop] at hres
      simp at hres
    · rw [hpop] at hres
      have hFne : F ≠ [] := by
        intro hF
        rw [hF] at hpop
        simp [heappop] at hpop
      obtain ⟨r, rest, hpop2, hperm, hlen2, _⟩ := heappop_spec F hFne
      rw [hpop] at hpop2
      have hrk : r = (k, nodo) := by
        injection hpop2 with h1
        injection h1 with ha hb
        exact ha.symm
      have hrest : rest = F1 := by
        injection hpop2 with h1
        injection h1 with ha hb
        exact hb.symm
      rw [hrk, hrest] at hperm
      have hrsane : NodoSane s nodo := hsane (k, nodo) (hperm.mem_iff.mpr (by simp))
      have hres2 : (if nodo.estado = objetivo then some (some (reconstruir nodo))
          else astarLoop h fuel ((expande nodo).foldl (fun fr ns =>
            if ns.estado ∈ List.insert nodo.estado E then fr
            else heappush fr (ns.custo + h ns.estado, ns)) F1)
            (List.insert nodo.estado E))
          = some (some c) := hres
      by_cases hgoal : nodo.estado = objetivo
      · rw [if_pos hgoal] at hres2
        have hc : c = reconstruir nodo := by
          injection hres2 with h1
          injection h1 with h2
          exact h2.symm
        rw [hc, hrsane.1, hgoal]
      · rw [if_neg hgoal] at hres2
        apply astarLoop_sound h fuel _ _ s _ c hres2
        intro e he
        rcases foldl_heappush_mem h _ _ _ e he with h1 | ⟨ns, hns, rfl⟩
        · exact hsane e (hperm.mem_iff.mpr (by simp [h1]))
        · exact nodoSane_filho hrsane hns

theorem astarBusca_sound {h : List Char → ℕ} {fuel : ℕ} {s : List Char} {c : List String}
    (hres : astarBusca h fuel s = some (some c)) : replay s c = some objetivo := by
  have hres2 : astarLoop h fuel
      (heappush [] (h (Nodo.mk s none none 0).estado, Nodo.mk s none none 0)) []
      = some (some c) := hres
  apply astarLoop_sound h fuel _ [] s _ c hres2
  intro e he
  rcases List.mem_cons.mp ((heappush_perm [] _).mem_iff.mp he) with h1 | h2
  · rw [h1]
    exact nodoSane_raiz s
  · exact absurd h2 (List.not_mem_nil e)

/-- Claim C2: for every start state and every strategy that returns a
non-none result, replaying the returned move labels in order from the start
state via the successor function reaches exactly the goal state.  (`bfs` and
`dfs` never return a result — they raise `NotImplementedError` — so the
property holds for them vacuously.) -/
theorem claim_C2_replay_reaches_goal (fuel : ℕ) (s : List Char) (c : List String) :
    (astar_hamming fuel s = some (some c) → replay s c = some objetivo) ∧
    (astar_manhattan fuel s = some (some c) → replay s c = some objetivo) ∧
    (bfs s = Except.ok (some c) → replay s c = some objetivo) ∧
    (dfs s = Except.ok (some c) → replay s c = some objetivo) := by
  refine ⟨fun hr => astarBusca_sound hr, fun hr => astarBusca_sound hr,
    fun hr => ?_, fun hr => ?_⟩ <;> exact Except.noConfusion hr

/-- Claim C2, witness: the A*-Hamming result on the goal state replays to the
goal. -/
theorem claim_C2_witness :
    astar_hamming 1 objetivo = some (some []) ∧ replay objetivo [] = some objetivo :=
  ⟨by decide, (claim_C2_replay_reaches_goal 1 objetivo []).1 (by decide)⟩

/-- Claim C3, counterexample: called on the goal state, `bfs` and `dfs` do
not return an empty move sequence — their bodies raise
`NotImplementedError` — so not every strategy handles start == goal. -/
theorem claim_C3_counterexample :
    bfs objetivo = Except.error PyExc.notImplementedError ∧
    dfs objetivo = Except.error PyExc.notImplementedError :=
  ⟨rfl, rfl⟩

/-- Claim C3 (amended): called with the start state equal to the goal,
`astar_hamming` and `astar_manhattan` return the empty move sequence without
raising (the root is popped and the parent-chain walk yields `[]`), while the
optional `bfs` and `dfs` are unimplemented stubs that raise
`NotImplementedError` on every input, including the goal. -/
theorem claim_C3_goal_start_amended (fuel : ℕ) (hfuel : 1 ≤ fuel) :
    astar_hamming fuel objetivo = some (some []) ∧
    astar_manhattan fuel objetivo = some (some []) ∧
    bfs objetivo = Except.error PyExc.notImplementedError ∧
    dfs objetivo = Except.error PyExc.notImplementedError := by
  obtain ⟨fuel2, rfl⟩ : ∃ k, fuel = k + 1 := ⟨fuel - 1, by omega⟩
  exact ⟨rfl, rfl, rfl, rfl⟩

/-- Claim C3 (amended), witness: evaluation at fuel 1. -/
theorem claim_C3_witness :
    1 ≤ 1 ∧ (astar_hamming 1 objetivo = some (some []) ∧
    astar_manhattan 1 objetivo = some (some []) ∧
    bfs objetivo = Except.error PyExc.notImplementedError ∧
    dfs objetivo = Except.error PyExc.notImplementedError) :=
  ⟨by decide, claim_C3_goal_start_amended 1 (by decide)⟩

/-! ### Parity invariant and unsolvability -/

theorem countP_add_sum (f : Char → Char → Bool) :
    ∀ (Z : List Char) (Y : List Char) (c : Char),
      (Z.map (fun z => (c :: Y).countP (f z))).sum
        = Z.countP (fun z => f z c) + (Z.map (fun z => Y.countP (f z))).sum
  | [], Y, c => rfl
  | z :: Z, Y, c => by
    rw [List.map_cons, List.sum_cons, List.countP_cons, countP_add_sum f Z Y c,
      List.countP_cons, List.map_cons, List.sum_cons]
    omega

theorem inversoes_append : ∀ (A B : List Char),
    inversoes (A ++ B) = inversoes A + inversoes B
      + (A.map (fun a => B.countP (fun d => d < a))).sum
  | [], B => by simp [inversoes]
  | a :: A, B => by
    have hL : inversoes ((a :: A) ++ B) = (A ++ B).countP (fun d => d < a)
        + inversoes (A ++ B) := rfl
    have hR : inversoes (a :: A) = A.countP (fun d => d < a) + inversoes A := rfl
    rw [hL, hR, List.countP_append, inversoes_append A B, List.map_cons, List.sum_cons]
    omega

theorem countP_lt_add_gt {c : Char} : ∀ (Z : List Char), (∀ z ∈ Z, z ≠ c) →
    Z.countP (fun d => d < c) + Z.countP (fun d => c < d) = Z.length
  | [], _ => rfl
  | z :: Z, hz => by
    have hzc : z ≠ c := hz z (by simp)
    have ih := countP_lt_add_gt Z (fun x hx => hz x (by simp [hx]))
    rw [List.countP_cons, List.countP_cons, List.length_cons]
    rcases lt_or_gt_of_ne hzc with h | h
    · have h1 : (decide (z < c)) = true := by simpa using h
      have h2 : (decide (c < z)) = false := by
        simp only [decide_eq_false_iff_not]
        exact lt_asymm h
      rw [h1, h2]
      simp
      omega
    · have h1 : (decide (z < c)) = false := by
        simp only [decide_eq_false_iff_not]
        exact lt_asymm h
      have h2 : (decide (c < z)) = true := by simpa using h
      rw [h1, h2]
      simp
      omega

theorem inversoes_move (X Z Y : List Char) (c : Char) (hne : ∀ z ∈ Z, z ≠ c) :
    inversoes (X ++ c :: Z ++ Y) % 2 = (inversoes (X ++ Z ++ c :: Y) + Z.length) % 2 := by
  have hperm : List.Perm (c :: Z ++ Y) (Z ++ c :: Y) := (List.perm_middle).symm
  have hcross : (X.map (fun a => (c :: Z ++ Y).countP (fun d => d < a))).sum
      = (X.map (fun a => (Z ++ c :: Y).countP (fun d => d < a))).sum := by
    congr 1
    apply List.map_congr_left
    intro a _
    exact hperm.countP_eq _
  have h1 : inversoes (X ++ c :: Z ++ Y) = inversoes X + inversoes (c :: Z ++ Y)
      + (X.map (fun a => (c :: Z ++ Y).countP (fun d => d < a))).sum := by
    have := inversoes_append X (c :: Z ++ Y)
    simpa using this
  have h2 : inversoes (X ++ Z ++ c :: Y) = inversoes X + inversoes (Z ++ c :: Y)
      + (X.map (fun a => (Z ++ c :: Y).countP (fun d => d < a))).sum := by
    rw [List.append_assoc]
    exact inversoes_append X (Z ++ c :: Y)
  have h3 : inversoes (c :: Z ++ Y) = (Z ++ Y).countP (fun d => d < c) + inversoes (Z ++ Y) := by
    simp [inversoes]
  have h4 : inversoes (Z ++ Y) = inversoes Z + inversoes Y
      + (Z.map (fun z => Y.countP (fun d => d < z))).sum := inversoes_append Z Y
  have h5 : inversoes (Z ++ c :: Y) = inversoes Z + inversoes (c :: Y)
      + (Z.map (fun z => (c :: Y).countP (fun d => d < z))).sum := inversoes_append Z (c :: Y)
  have h6 : inversoes (c :: Y) = Y.countP (fun d => d < c) + inversoes Y := by
    simp [inversoes]
  have h7 : (Z.map (fun z => (c :: Y).countP (fun d => d < z))).sum
      = Z.countP (fun z => c < z) + (Z.map (fun z => Y.countP (fun d => d < z))).sum :=
    countP_add_sum (fun z d => decide (d < z)) Z Y c
  have h8 : (Z ++ Y).countP (fun d => d < c)
      = Z.countP (fun d => d < c) + Y.countP (fun d => d < c) := List.countP_append _ _ _
  have h9 := countP_lt_add_gt Z hne
  omega

theorem aplicar_mem {s : List Char} {a : String} {t : List Char}
    (h : aplicar s a = some t) : (a, t) ∈ sucessor s := by
  unfold aplicar at h
  rcases hf : (sucessor s).find? (fun p => p.1 == a) with _ | p
  · rw [hf] at h
    simp at h
  · rw [hf] at h
    have hp := List.mem_of_find?_eq_some hf
    have hpa : p.1 = a := by
      have := List.find?_some hf
      simpa using this
    have hpt : p.2 = t := by simpa using h
    rw [← hpa, ← hpt]
    exact hp

theorem replay_bem : ∀ (caminho : List String) (s z : List Char), BemFormado s →
    replay s caminho = some z → BemFormado z
  | [], s, z, hs, hr => by
    have : s = z := by simpa [replay] using hr
    rwa [← this]
  | a :: resto, s, z, hs, hr => by
    rw [replay] at hr
    rcases hap : aplicar s a with _ | t
    · rw [hap] at hr
      simp at hr
    · rw [hap] at hr
      exact replay_bem resto t z (sucessor_mem_bem hs (aplicar_mem hap)) hr

theorem nth_append_right : ∀ (A R : List Char) (k : ℕ), (A ++ R).getD (A.length + k) ' ' = R.getD k ' '
  | [], R, k => by simp
  | a :: A, R, k => by
    have : (a :: A).length + k = (A.length + k) + 1 := by simp; omega
    rw [this]
    simpa using nth_append_right A R k

theorem set_append_right2 : ∀ (A R : List Char) (k : ℕ) (b : Char),
    (A ++ R).set (A.length + k) b = A ++ R.set k b
  | [], R, k, b => by simp
  | a :: A, R, k, b => by
    have : (a :: A).length + k = (A.length + k) + 1 := by simp; omega
    rw [this]
    simp only [List.cons_append, List.set_cons_succ]
    rw [set_append_right2 A R k b]

theorem decomp1 (l : List Char) (i : ℕ) (hi : i < l.length) :
    l = l.take i ++ nth l i :: l.drop (i + 1) := by
  conv_lhs => rw [← List.take_append_drop i l]
  congr 1
  rw [List.drop_eq_getElem_cons hi, nth_eq_getElem l i hi]

theorem nth_drop (l : List Char) (n k : ℕ) (h : n + k < l.length) :
    nth (l.drop n) k = nth l (n + k) := by
  show (l.drop n).getD k ' ' = l.getD (n + k) ' '
  have h2 : k < (l.drop n).length := by simp; omega
  rw [List.getD_eq_getElem?_getD, List.getElem?_eq_getElem h2, Option.getD_some,
    List.getElem_drop, List.getD_eq_getElem?_getD, List.getElem?_eq_getElem h,
    Option.getD_some]

theorem swapNat_comm (l : List Char) (a b : ℕ) (ha : a < l.length) (hb : b < l.length) :
    swapNat l a b = swapNat l b a := by
  by_cases hab : a = b
  · rw [hab]
  · apply List.ext_getElem (by simp [swapNat])
    intro i h1 h2
    have hil : i < l.length := by simpa [swapNat] using h1
    have e1 : ∀ x y : ℕ, x < l.length → y < l.length → x ≠ y →
        ∀ j, j < l.length → (swapNat l x y).getD j ' ' =
          (if j = x then nth l y else if j = y then nth l x else nth l j) := by
      intro x y hx hy hxy j hj
      by_cases hjx : j = x
      · rw [if_pos hjx, hjx]
        exact nth_swapNat_fst hx (fun hh => hxy hh.symm)
      · rw [if_neg hjx]
        by_cases hjy : j = y
        · rw [if_pos hjy, hjy]
          exact nth_swapNat_snd hy
        · rw [if_neg hjy]
          exact nth_swapNat_other (fun hh => hjx hh.symm) (fun hh => hjy hh.symm)
    have g1 := e1 a b ha hb hab i hil
    have g2 := e1 b a hb ha (fun hh => hab hh.symm) i hil
    have e2 : ∀ L : List Char, ∀ hL : i < L.length, L[i] = L.getD i ' ' := by
      intro L hL
      rw [List.getD_eq_getElem?_getD, List.getElem?_eq_getElem hL, Option.getD_some]
    rw [e2 _ h1, e2 _ (by simpa [swapNat] using h2)]
    show (swapNat l a b).getD i ' ' = (swapNat l b a).getD i ' '
    rw [g1, g2]
    by_cases hia : i = a
    · by_cases hib : i = b
      · exact absurd (hia.symm.trans hib) hab
      · rw [if_pos hia, if_neg hib, if_pos hia]
    · by_cases hib : i = b
      · rw [if_neg hia, if_pos hib, if_pos hib]
      · rw [if_neg hia, if_neg hib, if_neg hib, if_neg hia]

theorem swapNat_decomp (l : List Char) (m k : ℕ) (h : m + k + 1 < l.length) :
    l = l.take m ++ nth l m ::
        ((l.drop (m + 1)).take k ++ nth l (m + k + 1) :: l.drop (m + k + 2)) ∧
    swapNat l m (m + k + 1) = l.take m ++ nth l (m + k + 1) ::
        ((l.drop (m + 1)).take k ++ nth l m :: l.drop (m + k + 2)) := by
  have hm : m < l.length := by omega
  have htlen : (l.take m).length = m := by simp; omega
  have hdlen : ((l.drop (m + 1)).take k).length = k := by simp; omega
  have hdec1 : l = l.take m ++ nth l m :: l.drop (m + 1) := decomp1 l m hm
  have hdec2 : l.drop (m + 1) = (l.drop (m + 1)).take k ++ nth l (m + k + 1) ::
      l.drop (m + k + 2) := by
    have hk : k < (l.drop (m + 1)).length := by simp; omega
    have hthis := decomp1 (l.drop (m + 1)) k hk
    rw [nth_drop l (m + 1) k (by omega)] at hthis
    have harith : m + 1 + k = m + k + 1 := by omega
    rw [harith] at hthis
    have hdd : (l.drop (m + 1)).drop (k + 1) = l.drop (m + k + 2) := by
      rw [List.drop_drop]
      congr 1
      omega
    rw [hdd] at hthis
    exact hthis
  have hdecFull : l = l.take m ++ nth l m ::
      ((l.drop (m + 1)).take k ++ nth l (m + k + 1) :: l.drop (m + k + 2)) := by
    conv_lhs => rw [hdec1, hdec2]
  refine ⟨hdecFull, ?_⟩
  unfold swapNat
  have hstep1 : l.set m (nth l (m + k + 1))
      = (l.take m ++ nth l m :: ((l.drop (m + 1)).take k
          ++ nth l (m + k + 1) :: l.drop (m + k + 2))).set m (nth l (m + k + 1)) := by
    rw [← hdecFull]
  rw [hstep1]
  have he := set_append_right2 (l.take m)
    (nth l m :: ((l.drop (m + 1)).take k ++ nth l (m + k + 1) :: l.drop (m + k + 2)))
    0 (nth l (m + k + 1))
  rw [htlen] at he
  have hadd : m + 0 = m := by omega
  rw [hadd] at he
  rw [he]
  have hsz : (nth l m :: ((l.drop (m + 1)).take k
      ++ nth l (m + k + 1) :: l.drop (m + k + 2))).set 0 (nth l (m + k + 1))
      = nth l (m + k + 1) :: ((l.drop (m + 1)).take k
        ++ nth l (m + k + 1) :: l.drop (m + k + 2)) := rfl
  rw [hsz]
  have he2 := set_append_right2 (l.take m)
    (nth l (m + k + 1) :: ((l.drop (m + 1)).take k
      ++ nth l (m + k + 1) :: l.drop (m + k + 2)))
    (k + 1) (nth l m)
  rw [htlen] at he2
  have hadd2 : m + (k + 1) = m + k + 1 := by omega
  rw [hadd2] at he2
  rw [he2]
  simp only [List.set_cons_succ]
  have he3 := set_append_right2 ((l.drop (m + 1)).take k)
    (nth l (m + k + 1) :: l.drop (m + k + 2)) 0 (nth l m)
  rw [hdlen] at he3
  have hadd3 : k + 0 = k := by omega
  rw [hadd3] at he3
  rw [he3]
  rfl

theorem take_two : ∀ (R : List Char), 2 ≤ R.length → R.take 2 = [nth R 0, nth R 1]
  | a :: b :: t, _ => by simp [nth]
  | [], h => absurd h (by simp)
  | [a], h => absurd h (by simp)

theorem sucessor_parity {l : List Char} (hl : BemFormado l) {p : String × List Char}
    (hp : p ∈ sucessor l) : inversoes (tiles p.2) % 2 = inversoes (tiles l) % 2 := by
  obtain ⟨i, hi, hblank, huniq, heq⟩ := sucessor_bem hl
  have hlen := bemFormado_length hl
  have hnd := bemFormado_nodup hl
  rw [heq] at hp
  have hnb : ∀ j, j < 9 → j ≠ i → nth l j ≠ '_' := fun j hj hji hc => hji (huniq j hj hc)
  have hne2 : ∀ a b : ℕ, a < 9 → b < 9 → a ≠ b → nth l a ≠ nth l b := by
    intro a b ha hb hab
    rw [nth_eq_getElem l a (by omega), nth_eq_getElem l b (by omega)]
    intro hcon
    exact hab (hnd.getElem_inj_iff.mp hcon)
  rcases mem_listaSuc hp with ⟨hc, rfl⟩ | ⟨hc, rfl⟩ | ⟨hc, rfl⟩ | ⟨hc, rfl⟩
  · -- esquerda: adjacent swap, tile sequence unchanged
    obtain ⟨hdec, hswap⟩ := swapNat_decomp l (i - 1) 0 (by omega)
    have harr : i - 1 + 0 + 1 = i := by omega
    rw [harr] at hdec hswap
    have hx : nth l (i - 1) ≠ '_' := hnb (i - 1) (by omega) (by omega)
    show inversoes (tiles (swapNat l i (i - 1))) % 2 = inversoes (tiles l) % 2
    rw [swapNat_comm l i (i - 1) (by omega) (by omega), hswap]
    conv_rhs => rw [hdec]
    simp [tiles, List.filter_append, List.filter_cons, hblank, hx]
  · -- direita: adjacent swap, tile sequence unchanged
    obtain ⟨hdec, hswap⟩ := swapNat_decomp l i 0 (by omega)
    have harr : i + 0 + 1 = i + 1 := by omega
    rw [harr] at hdec hswap
    have hx : nth l (i + 1) ≠ '_' := hnb (i + 1) (by omega) (by omega)
    show inversoes (tiles (swapNat l i (i + 1))) % 2 = inversoes (tiles l) % 2
    rw [hswap]
    conv_rhs => rw [hdec]
    simp [tiles, List.filter_append, List.filter_cons, hblank, hx]
  · -- acima: the moved tile crosses the two tiles between it and the blank
    obtain ⟨hdec, hswap⟩ := swapNat_decomp l (i - 3) 2 (by omega)
    rw [show i - 3 + 2 + 1 = i by omega, show i - 3 + 2 + 2 = i + 1 by omega,
      hblank] at hdec hswap
    have hM : (l.drop (i - 3 + 1)).take 2 = [nth l (i - 2), nth l (i - 1)] := by
      rw [show i - 3 + 1 = i - 2 by omega, take_two (l.drop (i - 2)) (by simp; omega),
        nth_drop l (i - 2) 0 (by omega), nth_drop l (i - 2) 1 (by omega),
        show i - 2 + 0 = i - 2 by omega, show i - 2 + 1 = i - 1 by omega]
    rw [hM] at hdec hswap
    have hx : nth l (i - 3) ≠ '_' := hnb (i - 3) (by omega) (by omega)
    have hm1 : nth l (i - 2) ≠ '_' := hnb (i - 2) (by omega) (by omega)
    have hm2 : nth l (i - 1) ≠ '_' := hnb (i - 1) (by omega) (by omega)
    have hz1 : nth l (i - 2) ≠ nth l (i - 3) := hne2 _ _ (by omega) (by omega) (by omega)
    have hz2 : nth l (i - 1) ≠ nth l (i - 3) := hne2 _ _ (by omega) (by omega) (by omega)
    show inversoes (tiles (swapNat l i (i - 3))) % 2 = inversoes (tiles l) % 2
    rw [swapNat_comm l i (i - 3) (by omega) (by omega), hswap]
    conv_rhs => rw [hdec]
    have goalL : tiles (l.take (i - 3) ++ '_' ::
          ([nth l (i - 2), nth l (i - 1)] ++ nth l (i - 3) :: l.drop (i + 1)))
        = tiles (l.take (i - 3)) ++ [nth l (i - 2), nth l (i - 1)]
          ++ nth l (i - 3) :: tiles (l.drop (i + 1)) := by
      simp [tiles, List.filter_append, List.filter_cons, hx, hm1, hm2]
    have goalR : tiles (l.take (i - 3) ++ nth l (i - 3) ::
          ([nth l (i - 2), nth l (i - 1)] ++ '_' :: l.drop (i + 1)))
        = tiles (l.take (i - 3)) ++ nth l (i - 3) ::
          [nth l (i - 2), nth l (i - 1)] ++ tiles (l.drop (i + 1)) := by
      simp [tiles, List.filter_append, List.filter_cons, hx, hm1, hm2]
    rw [goalL, goalR]
    have hmove := inversoes_move (tiles (l.take (i - 3))) [nth l (i - 2), nth l (i - 1)]
      (tiles (l.drop (i + 1))) (nth l (i - 3))
      (by
        intro z hz
        rcases List.mem_cons.mp hz with h1 | h1
        · rw [h1]; exact hz1
        · rw [show z = nth l (i - 1) by simpa using h1]; exact hz2)
    rw [show ([nth l (i - 2), nth l (i - 1)] : List Char).length = 2 from rfl] at hmove
    rw [hmove]
    omega
  · -- abaixo: symmetric to acima
    obtain ⟨hdec, hswap⟩ := swapNat_decomp l i 2 (by omega)
    rw [show i + 2 + 1 = i + 3 by omega, show i + 2 + 2 = i + 4 by omega,
      hblank] at hdec hswap
    have hM : (l.drop (i + 1)).take 2 = [nth l (i + 1), nth l (i + 2)] := by
      rw [take_two (l.drop (i + 1)) (by simp; omega),
        nth_drop l (i + 1) 0 (by omega), nth_drop l (i + 1) 1 (by omega),
        show i + 1 + 0 = i + 1 by omega, show i + 1 + 1 = i + 2 by omega]
    rw [hM] at hdec hswap
    have hx : nth l (i + 3) ≠ '_' := hnb (i + 3) (by omega) (by omega)
    have hm1 : nth l (i + 1) ≠ '_' := hnb (i + 1) (by omega) (by omega)
    have hm2 : nth l (i + 2) ≠ '_' := hnb (i + 2) (by omega) (by omega)
    have hz1 : nth l (i + 1) ≠ nth l (i + 3) := hne2 _ _ (by omega) (by omega) (by omega)
    have hz2 : nth l (i + 2) ≠ nth l (i + 3) := hne2 _ _ (by omega) (by omega) (by omega)
    show inversoes (tiles (swapNat l i (i + 3))) % 2 = inversoes (tiles l) % 2
    rw [hswap]
    conv_rhs => rw [hdec]
    have goalL : tiles (l.take i ++ nth l (i + 3) ::
          ([nth l (i + 1), nth l (i + 2)] ++ '_' :: l.drop (i + 4)))
        = tiles (l.take i) ++ nth l (i + 3) ::
          [nth l (i + 1), nth l (i + 2)] ++ tiles (l.drop (i + 4)) := by
      simp [tiles, List.filter_append, List.filter_cons, hx, hm1, hm2]
    have goalR : tiles (l.take i ++ '_' ::
          ([nth l (i + 1), nth l (i + 2)] ++ nth l (i + 3) :: l.drop (i + 4)))
        = tiles (l.take i) ++ [nth l (i + 1), nth l (i + 2)]
          ++ nth l (i + 3) :: tiles (l.drop (i + 4)) := by
      simp [tiles, List.filter_append, List.filter_cons, hx, hm1, hm2]
    rw [goalL, goalR]
    have hmove := inversoes_move (tiles (l.take i)) [nth l (i + 1), nth l (i + 2)]
      (tiles (l.drop (i + 4))) (nth l (i + 3))
      (by
        intro z hz
        rcases List.mem_cons.mp hz with h1 | h1
        · rw [h1]; exact hz1
        · rw [show z = nth l (i + 2) by simpa using h1]; exact hz2)
    rw [show ([nth l (i + 1), nth l (i + 2)] : List Char).length = 2 from rfl] at hmove
    rw [hmove]
    omega

theorem replay_parity : ∀ (caminho : List String) (s z : List Char), BemFormado s →
    replay s caminho = some z → inversoes (tiles z) % 2 = inversoes (tiles s) % 2
  | [], s, z, hs, hr => by
    have : s = z := by simpa [replay] using hr
    rw [this]
  | a :: resto, s, z, hs, hr => by
    rw [replay] at hr
    rcases hap : aplicar s a with _ | t
    · rw [hap] at hr
      simp at hr
    · rw [hap] at hr
      have hmem := aplicar_mem hap
      have h1 := replay_parity resto t z (sucessor_mem_bem hs hmem) hr
      exact h1.trans (sucessor_parity hs hmem)

theorem solvavel_parity {s : List Char} (hs : BemFormado s) (h : Solvavel s) :
    inversoes (tiles s) % 2 = 0 := by
  obtain ⟨c, hc⟩ := h
  have h1 := replay_parity c s objetivo hs hc
  have h2 : inversoes (tiles objetivo) % 2 = 0 := by decide
  omega

theorem unsolvable21 : ¬ Solvavel ['2', '1', '3', '4', '5', '6', '7', '8', '_'] := by
  intro h
  have hbf : BemFormado ['2', '1', '3', '4', '5', '6', '7', '8', '_'] := by decide
  have h1 := solvavel_parity hbf h
  have h2 : inversoes (tiles ['2', '1', '3', '4', '5', '6', '7', '8', '_']) % 2 = 1 := by
    decide
  omega

/-! ### Termination of the A* loop -/

theorem heappop_none {F : List (ℕ × Nodo)} (hnone : heappop F = none) : F = [] := by
  by_contra hne
  obtain ⟨r, rest, hpop, _⟩ := heappop_spec F hne
  rw [hnone] at hpop
  exact Option.noConfusion hpop

/-- One non-goal step of the A* loop, as an equation: pop `nodo`, mark it
explored, push its unexplored children. -/
theorem astarLoop_step (h : List Char → ℕ) (fuel : ℕ) (F F1 : List (ℕ × Nodo))
    (E : List (List Char)) (k : ℕ) (nodo : Nodo)
    (hpop : heappop F = some ((k, nodo), F1)) (hgoal : nodo.estado ≠ objetivo) :
    astarLoop h (fuel + 1) F E =
      astarLoop h fuel
        ((expande nodo).foldl
          (fun fr ns => if ns.estado ∈ List.insert nodo.estado E then fr
            else heappush fr (ns.custo + h ns.estado, ns)) F1)
        (List.insert nodo.estado E) := by
  rw [astarLoop, hpop]
  exact if_neg hgoal

theorem countP_le_of_imp {α : Type} (p q : α → Bool)
    (himp : ∀ a, p a = true → q a = true) :
    ∀ l : List α, l.countP p ≤ l.countP q
  | [] => le_refl _
  | a :: l => by
    have h1 := countP_le_of_imp p q himp l
    by_cases hpa : p a = true
    · rw [List.countP_cons_of_pos _ _ hpa, List.countP_cons_of_pos _ _ (himp a hpa)]
      omega
    · rw [List.countP_cons_of_neg _ _ hpa]
      by_cases hqa : q a = true
      · rw [List.countP_cons_of_pos _ _ hqa]; omega
      · rw [List.countP_cons_of_neg _ _ hqa]; omega

theorem countP_lt_of_flip {α : Type} (p q : α → Bool)
    (himp : ∀ a, p a = true → q a = true) :
    ∀ (l : List α) (x : α), x ∈ l → q x = true → p x = false →
      l.countP p < l.countP q
  | [], x, hx, _, _ => absurd hx (List.not_mem_nil x)
  | a :: l, x, hx, hqx, hpx => by
    have hle := countP_le_of_imp p q himp l
    rcases List.mem_cons.mp hx with rfl | hxl
    · rw [List.countP_cons_of_neg _ _ (by simp [hpx]), List.countP_cons_of_pos _ _ hqx]
      omega
    · have hlt := countP_lt_of_flip p q himp l x hxl hqx hpx
      by_cases hpa : p a = true
      · rw [List.countP_cons_of_pos _ _ hpa, List.countP_cons_of_pos _ _ (himp a hpa)]
        omega
      · rw [List.countP_cons_of_neg _ _ hpa]
        by_cases hqa : q a = true
        · rw [List.countP_cons_of_pos _ _ hqa]; omega
        · rw [List.countP_cons_of_neg _ _ hqa]; omega

/-- Entries pushed by the child-folding step all have unexplored states, so
the count of explored-state entries in the frontier is unchanged. -/
theorem foldl_heappush_countP (h : List Char → ℕ) (E1 : List (List Char)) :
    ∀ (children : List Nodo) (fr : List (ℕ × Nodo)),
      (children.foldl
        (fun fr ns => if ns.estado ∈ E1 then fr
          else heappush fr (ns.custo + h ns.estado, ns)) fr).countP
        (fun e => decide (e.2.estado ∈ E1))
      = fr.countP (fun e => decide (e.2.estado ∈ E1))
  | [], fr => rfl
  | ns :: rest, fr => by
    rw [List.foldl_cons, foldl_heappush_countP h E1 rest]
    by_cases hin : ns.estado ∈ E1
    · rw [if_pos hin]
    · rw [if_neg hin, (heappush_perm fr (ns.custo + h ns.estado, ns)).countP_eq,
        List.countP_cons_of_neg]
      simpa using hin

theorem astarLoop_term (h : List Char → ℕ) :
    ∀ (m1 m2 : ℕ) (F : List (ℕ × Nodo)) (E : List (List Char)),
      (∀ e ∈ F, BemFormado e.2.estado) →
      objetivo.permutations.countP (fun t => decide (t ∉ E)) = m1 →
      F.countP (fun e => decide (e.2.estado ∈ E)) = m2 →
      ∃ fuel, astarLoop h fuel F E ≠ none := by
  intro m1
  induction m1 using Nat.strong_induction_on with
  | _ m1 ih1 =>
  intro m2
  induction m2 using Nat.strong_induction_on with
  | _ m2 ih2 =>
  intro F E hbem hm1 hm2
  rcases hpop : heappop F with _ | ⟨⟨k, nodo⟩, F1⟩
  · refine ⟨1, ?_⟩
    rw [show (1 : ℕ) = 0 + 1 from rfl, astarLoop, hpop]
    simp
  · have hFne : F ≠ [] := by
      intro hF
      rw [hF] at hpop
      simp [heappop] at hpop
    obtain ⟨r, rest, hpop2, hperm, hlen2, _⟩ := heappop_spec F hFne
    rw [hpop] at hpop2
    have hrk : r = (k, nodo) := by
      injection hpop2 with h1
      injection h1 with ha hb
      exact ha.symm
    have hrest : rest = F1 := by
      injection hpop2 with h1
      injection h1 with ha hb
      exact hb.symm
    rw [hrk, hrest] at hperm
    have hnodoBem : BemFormado nodo.estado :=
      hbem (k, nodo) (hperm.mem_iff.mpr (by simp))
    by_cases hgoal : nodo.estado = objetivo
    · refine ⟨1, ?_⟩
      rw [show (1 : ℕ) = 0 + 1 from rfl, astarLoop, hpop]
      simp [hgoal]
    · by_cases hzE : nodo.estado ∈ E
      · have hins : List.insert nodo.estado E = E := List.insert_of_mem hzE
        have hbem2 : ∀ e ∈ (expande nodo).foldl
            (fun fr ns => if ns.estado ∈ E then fr
              else heappush fr (ns.custo + h ns.estado, ns)) F1,
            BemFormado e.2.estado := by
          intro e he
          rcases foldl_heappush_mem h E (expande nodo) F1 e he with h1 | ⟨ns, hns, rfl⟩
          · exact hbem e (hperm.mem_iff.mpr (by simp [h1]))
          · obtain ⟨p, hp, rfl⟩ := expande_mem_eq hns
            exact sucessor_mem_bem hnodoBem hp
        have hcnt1 : F.countP (fun e => decide (e.2.estado ∈ E))
            = F1.countP (fun e => decide (e.2.estado ∈ E)) + 1 := by
          rw [hperm.countP_eq, List.countP_cons_of_pos]
          simpa using hzE
        have hcnt2 := foldl_heappush_countP h E (expande nodo) F1
        obtain ⟨fuel0, hne⟩ := ih2 (m2 - 1) (by omega) _ E hbem2 hm1
          (by rw [hcnt2]; omega)
        refine ⟨fuel0 + 1, ?_⟩
        have hstep := astarLoop_step h fuel0 F F1 E k nodo hpop hgoal
        rw [hins] at hstep
        rw [hstep]
        exact hne
      · have hbem2 : ∀ e ∈ (expande nodo).foldl
            (fun fr ns => if ns.estado ∈ List.insert nodo.estado E then fr
              else heappush fr (ns.custo + h ns.estado, ns)) F1,
            BemFormado e.2.estado := by
          intro e he
          rcases foldl_heappush_mem h _ (expande nodo) F1 e he with h1 | ⟨ns, hns, rfl⟩
          · exact hbem e (hperm.mem_iff.mpr (by simp [h1]))
          · obtain ⟨p, hp, rfl⟩ := expande_mem_eq hns
            exact sucessor_mem_bem hnodoBem hp
        have hm1lt : objetivo.permutations.countP
            (fun t => decide (t ∉ List.insert nodo.estado E)) < m1 := by
          rw [← hm1]
          apply countP_lt_of_flip _ _ ?_ objetivo.permutations nodo.estado
            (List.mem_permutations.mpr hnodoBem) (by simpa using hzE)
            (by simp [List.mem_insert_iff])
          intro t ht
          simp only [decide_eq_true_eq] at ht ⊢
          intro htE
          exact ht (List.mem_insert_iff.mpr (Or.inr htE))
        obtain ⟨fuel0, hne⟩ := ih1 _ hm1lt _ _ (List.insert nodo.estado E) hbem2 rfl rfl
        refine ⟨fuel0 + 1, ?_⟩
        rw [astarLoop_step h fuel0 F F1 E k nodo hpop hgoal]
        exact hne

theorem astarBusca_term (h : List Char → ℕ) {s : List Char} (hs : BemFormado s) :
    ∃ fuel r, astarBusca h fuel s = some r := by
  have hbem : ∀ e ∈ heappush [] (h s, Nodo.mk s none none 0), BemFormado e.2.estado := by
    intro e he
    rcases List.mem_cons.mp ((heappush_perm [] _).mem_iff.mp he) with h1 | h2
    · rw [h1]; exact hs
    · exact absurd h2 (List.not_mem_nil e)
  obtain ⟨fuel, hne⟩ :=
    astarLoop_term h _ _ (heappush [] (h s, Nodo.mk s none none 0)) [] hbem rfl rfl
  rcases hr : astarLoop h fuel (heappush [] (h s, Nodo.mk s none none 0)) [] with _ | r
  · exact absurd hr hne
  · exact ⟨fuel, r, hr⟩

/-- Claim C4, counterexample: on the unsolvable well-formed state
`"21345678_"` the optional strategies `bfs` and `dfs` do not terminate with
the no-solution signal — their stub bodies raise `NotImplementedError` — so
not every strategy returns `None` there. -/
theorem claim_C4_counterexample :
    bfs ['2', '1', '3', '4', '5', '6', '7', '8', '_']
      = Except.error PyExc.notImplementedError ∧
    dfs ['2', '1', '3', '4', '5', '6', '7', '8', '_']
      = Except.error PyExc.notImplementedError :=
  ⟨rfl, rfl⟩

/-- Claim C4 (amended): on the unsolvable well-formed state `"21345678_"`
(verified unsolvable by the parity argument `unsolvable21`), the two
implemented strategies `astar_hamming` and `astar_manhattan` terminate —
the loop exhausts the frontier after finitely many iterations (some finite
fuel suffices) — and return the distinct no-solution signal `None`
(`some none`), not an error and not an empty path; the optional `bfs` and
`dfs` are unimplemented stubs that raise `NotImplementedError` instead. -/
theorem claim_C4_unsolvable_amended :
    (∃ fuel, astar_hamming fuel ['2', '1', '3', '4', '5', '6', '7', '8', '_']
      = some none) ∧
    (∃ fuel, astar_manhattan fuel ['2', '1', '3', '4', '5', '6', '7', '8', '_']
      = some none) ∧
    bfs ['2', '1', '3', '4', '5', '6', '7', '8', '_']
      = Except.error PyExc.notImplementedError ∧
    dfs ['2', '1', '3', '4', '5', '6', '7', '8', '_']
      = Except.error PyExc.notImplementedError := by
  have hbf : BemFormado ['2', '1', '3', '4', '5', '6', '7', '8', '_'] := by decide
  have key : ∀ h : List Char → ℕ,
      ∃ fuel, astarBusca h fuel ['2', '1', '3', '4', '5', '6', '7', '8', '_']
        = some none := by
    intro h
    obtain ⟨fuel, r, hr⟩ := astarBusca_term h hbf
    rcases r with _ | c
    · exact ⟨fuel, hr⟩
    · exact absurd ⟨c, astarBusca_sound hr⟩ unsolvable21
  exact ⟨key hamming_heuristica, key manhattan_heuristica, rfl, rfl⟩

/-! ### Optimality of the A* loop: helper lemmas -/

theorem foldl_heappush_keep (h : List Char → ℕ) (E1 : List (List Char)) :
    ∀ (children : List Nodo) (fr : List (ℕ × Nodo)) (e : ℕ × Nodo),
      e ∈ fr →
      e ∈ children.foldl
        (fun fr ns => if ns.estado ∈ E1 then fr
          else heappush fr (ns.custo + h ns.estado, ns)) fr
  | [], _, _, he => he
  | ns :: rest, fr, e, he => by
    rw [List.foldl_cons]
    apply foldl_heappush_keep h E1 rest
    by_cases hin : ns.estado ∈ E1
    · rw [if_pos hin]
      exact he
    · rw [if_neg hin]
      exact (heappush_perm fr _).mem_iff.mpr (List.mem_cons.mpr (Or.inr he))

theorem foldl_heappush_covers (h : List Char → ℕ) (E1 : List (List Char)) :
    ∀ (children : List Nodo) (fr : List (ℕ × Nodo)) (ns : Nodo),
      ns ∈ children → ns.estado ∉ E1 →
      (ns.custo + h ns.estado, ns) ∈ children.foldl
        (fun fr ns2 => if ns2.estado ∈ E1 then fr
          else heappush fr (ns2.custo + h ns2.estado, ns2)) fr
  | [], _, ns, hmem, _ => absurd hmem (List.not_mem_nil ns)
  | ns2 :: rest, fr, ns, hmem, hnin => by
    rw [List.foldl_cons]
    rcases List.mem_cons.mp hmem with rfl | htail
    · apply foldl_heappush_keep h E1 rest
      rw [if_neg hnin]
      exact (heappush_perm fr _).mem_iff.mpr (List.mem_cons.mpr (Or.inl rfl))
    · exact foldl_heappush_covers h E1 rest _ ns htail hnin

theorem foldl_heappush_heapInv (h : List Char → ℕ) (E1 : List (List Char)) :
    ∀ (children : List Nodo) (fr : List (ℕ × Nodo)), HeapInv fr →
      HeapInv (children.foldl
        (fun fr ns => if ns.estado ∈ E1 then fr
          else heappush fr (ns.custo + h ns.estado, ns)) fr)
  | [], _, hh => hh
  | ns :: rest, fr, hh => by
    rw [List.foldl_cons]
    apply foldl_heappush_heapInv h E1 rest
    by_cases hin : ns.estado ∈ E1
    · rw [if_pos hin]
      exact hh
    · rw [if_neg hin]
      exact heappush_heapInv hh _

theorem exists_distEq_aux : ∀ (m : ℕ) (s z : List Char) (c : List String),
    replay s c = some z → c.length = m → ∃ d, DistEq s z d := by
  intro m
  induction m using Nat.strong_induction_on with
  | _ m ih =>
  intro s z c hc hlen
  by_cases hmin : ∀ c2, replay s c2 = some z → m ≤ c2.length
  · refine ⟨m, ⟨c, hc, hlen⟩, ?_⟩
    rintro m2 ⟨c2, hc2, hlen2⟩
    rw [← hlen2]
    exact hmin c2 hc2
  · push_neg at hmin
    obtain ⟨c2, hc2, hlt⟩ := hmin
    exact ih c2.length (by omega) s z c2 hc2 rfl

theorem exists_distEq {s z : List Char} (ha : Alcanca s z) : ∃ d, DistEq s z d := by
  obtain ⟨c, hc⟩ := ha
  exact exists_distEq_aux c.length s z c hc rfl

theorem replay_take_some {s z : List Char} {c : List String} (hc : replay s c = some z) :
    ∀ j : ℕ, replay s (c.take j) = some (pathState s c j) := by
  intro j
  have hsplit := replay_append (c.take j) (c.drop j) s
  rw [List.take_append_drop, hc] at hsplit
  rcases hw : replay s (c.take j) with _ | w
  · rw [hw] at hsplit
    exact Option.noConfusion hsplit
  · show some w = some ((replay s (c.take j)).getD objetivo)
    rw [hw]
    rfl

theorem replay_drop_eq {s z : List Char} {c : List String} (hc : replay s c = some z)
    (j : ℕ) : replay (pathState s c j) (c.drop j) = some z := by
  have hsplit := replay_append (c.take j) (c.drop j) s
  rw [List.take_append_drop, hc, replay_take_some hc j] at hsplit
  exact hsplit.symm

theorem pathState_last {s z : List Char} {c : List String} (hc : replay s c = some z) :
    pathState s c c.length = z := by
  show (replay s (c.take c.length)).getD objetivo = z
  rw [List.take_length, hc]
  rfl

theorem pathState_step {s z : List Char} {c : List String} (hc : replay s c = some z)
    {j : ℕ} (hj : j < c.length) :
    aplicar (pathState s c j) (c.getD j "") = some (pathState s c (j + 1)) := by
  have h1 := replay_take_some hc j
  have h2 := replay_take_some hc (j + 1)
  have hgd : c.getD j "" = c.get ⟨j, hj⟩ := by
    rw [List.getD_eq_getElem?_getD, List.getElem?_eq_getElem hj]
    rfl
  have htake : c.take (j + 1) = c.take j ++ [c.get ⟨j, hj⟩] := by
    rw [List.take_succ, List.getElem?_eq_getElem hj]
    rfl
  have h3 : replay (pathState s c j) [c.get ⟨j, hj⟩] = some (pathState s c (j + 1)) := by
    have hsplit := replay_append (c.take j) [c.get ⟨j, hj⟩] s
    rw [h1, ← htake, h2] at hsplit
    exact hsplit.symm
  rw [hgd]
  rcases hap : aplicar (pathState s c j) (c.get ⟨j, hj⟩) with _ | t
  · rw [replay, hap] at h3
    exact Option.noConfusion h3
  · rw [replay, hap] at h3
    exact h3

theorem pathState_distinct {s z : List Char} {c : List String} (hc : replay s c = some z)
    (hmin : ∀ c2, replay s c2 = some z → c.length ≤ c2.length) :
    ∀ i j, i < j → j ≤ c.length → pathState s c i ≠ pathState s c j := by
  intro i j hij hjle heq
  have h1 := replay_take_some hc i
  have hdj := replay_drop_eq hc j
  rw [← heq] at hdj
  have hcomb := replay_append (c.take i) (c.drop j) s
  rw [h1] at hcomb
  have hrep : replay s (c.take i ++ c.drop j) = some z := by
    rw [hcomb]
    exact hdj
  have hlen := hmin _ hrep
  rw [List.length_append, List.length_take, List.length_drop,
    Nat.min_eq_left (by omega)] at hlen
  omega

theorem pathState_bem {s z : List Char} {c : List String} (hs : BemFormado s)
    (hc : replay s c = some z) (j : ℕ) : BemFormado (pathState s c j) :=
  replay_bem (c.take j) s _ hs (replay_take_some hc j)

/-- Telescoped consistency: a consistent heuristic changes by at most the
number of moves along any successful replay. -/
theorem consistent_replay (h : List Char → ℕ)
    (hcons : ∀ (l : List Char) (p : String × List Char), BemFormado l →
      p ∈ sucessor l → h l ≤ h p.2 + 1) :
    ∀ (c : List String) (w z : List Char), BemFormado w →
      replay w c = some z → h w ≤ h z + c.length
  | [], w, z, _, hr => by
    have : w = z := by simpa [replay] using hr
    rw [this]
    simp
  | a :: resto, w, z, hw, hr => by
    rw [replay] at hr
    rcases hap : aplicar w a with _ | t
    · rw [hap] at hr
      simp at hr
    · rw [hap] at hr
      have hmem := aplicar_mem hap
      have h1 : h w ≤ h t + 1 := hcons w (a, t) hw hmem
      have h2 := consistent_replay h hcons resto t z (sucessor_mem_bem hw hmem) hr
      simp only [List.length_cons]
      omega

theorem sum_split_two (f : ℕ → ℕ) {i j : ℕ} (hi : i < 9) (hj : j < 9) (hij : i ≠ j) :
    ∑ p ∈ Finset.range 9, f p
      = ∑ p ∈ ((Finset.range 9).erase i).erase j, f p + f i + f j := by
  have hi2 : i ∈ Finset.range 9 := Finset.mem_range.mpr hi
  have hj2 : j ∈ (Finset.range 9).erase i :=
    Finset.mem_erase.mpr ⟨Ne.symm hij, Finset.mem_range.mpr hj⟩
  rw [← Finset.sum_erase_add _ _ hi2, ← Finset.sum_erase_add _ _ hj2]
  omega

/-- A swap of the blank with any other cell increases the Hamming heuristic
by at most one (only the two swapped positions change, and the blank
contributes nothing). -/
theorem hamming_swap_le {l : List Char} (hlen : l.length = 9) {i j : ℕ}
    (hi : i < 9) (hj : j < 9) (hij : i ≠ j) (hblank : nth l i = '_') :
    hamming_heuristica l ≤ hamming_heuristica (swapNat l i j) + 1 := by
  have hti : nth (swapNat l i j) i = nth l j := nth_swapNat_fst (by omega) (Ne.symm hij)
  have htj : nth (swapNat l i j) j = nth l i := nth_swapNat_snd (by omega)
  have hto : ∀ p, p ≠ i → p ≠ j → nth (swapNat l i j) p = nth l p := fun p hpi hpj =>
    nth_swapNat_other (Ne.symm hpi) (Ne.symm hpj)
  rw [hamming_eq_sum l, hamming_eq_sum (swapNat l i j)]
  rw [sum_split_two _ hi hj hij, sum_split_two _ hi hj hij]
  have hcong : ∑ p ∈ ((Finset.range 9).erase i).erase j,
        (if nth (swapNat l i j) p ≠ nth objetivo p ∧ nth (swapNat l i j) p ≠ '_'
          then 1 else 0)
      = ∑ p ∈ ((Finset.range 9).erase i).erase j,
        (if nth l p ≠ nth objetivo p ∧ nth l p ≠ '_' then 1 else 0) := by
    apply Finset.sum_congr rfl
    intro p hp
    have h1 := Finset.mem_erase.mp hp
    have h2 := Finset.mem_erase.mp h1.2
    rw [hto p h2.1 h1.1]
  rw [hcong]
  have h1 : (if nth l i ≠ nth objetivo i ∧ nth l i ≠ '_' then (1 : ℕ) else 0) = 0 := by
    rw [hblank]
    simp
  have h2 : (if nth (swapNat l i j) j ≠ nth objetivo j ∧ nth (swapNat l i j) j ≠ '_'
      then (1 : ℕ) else 0) = 0 := by
    rw [htj, hblank]
    simp
  have h3 : (if nth l j ≠ nth objetivo j ∧ nth l j ≠ '_' then (1 : ℕ) else 0) ≤ 1 := by
    split <;> omega
  omega

/-- Triangle inequality for the 3×3 grid distance, specialised to an
adjacent pair `i`, `j`. -/
theorem mdist_triangle_adj (g i j : ℕ)
    (hadj : ((i : ℤ).fdiv 3 - (j : ℤ).fdiv 3).natAbs
      + ((i : ℤ).emod 3 - (j : ℤ).emod 3).natAbs = 1) :
    ((g : ℤ).fdiv 3 - (j : ℤ).fdiv 3).natAbs + ((g : ℤ).emod 3 - (j : ℤ).emod 3).natAbs
      ≤ ((g : ℤ).fdiv 3 - (i : ℤ).fdiv 3).natAbs
        + ((g : ℤ).emod 3 - (i : ℤ).emod 3).natAbs + 1 := by
  have e1 : ((g : ℕ) : ℤ).fdiv 3 = ((g : ℕ) : ℤ) / 3 := Int.fdiv_eq_ediv _ (by norm_num)
  have e2 : ((i : ℕ) : ℤ).fdiv 3 = ((i : ℕ) : ℤ) / 3 := Int.fdiv_eq_ediv _ (by norm_num)
  have e3 : ((j : ℕ) : ℤ).fdiv 3 = ((j : ℕ) : ℤ) / 3 := Int.fdiv_eq_ediv _ (by norm_num)
  have m1 : ((g : ℕ) : ℤ).emod 3 = ((g : ℕ) : ℤ) % 3 := rfl
  have m2 : ((i : ℕ) : ℤ).emod 3 = ((i : ℕ) : ℤ) % 3 := rfl
  have m3 : ((j : ℕ) : ℤ).emod 3 = ((j : ℕ) : ℤ) % 3 := rfl
  rw [e2, e3, m2, m3] at hadj
  rw [e1, e2, e3, m1, m2, m3]
  omega

/-- A swap of the blank with an adjacent cell increases the Manhattan
heuristic by at most one (the moved tile's distance term changes by at most
the grid distance between the two cells). -/
theorem manhattan_swap_le {l : List Char} (hlen : l.length = 9) {i j : ℕ}
    (hi : i < 9) (hj : j < 9) (hij : i ≠ j) (hblank : nth l i = '_')
    (hjb : nth l j ≠ '_')
    (hadj : ((i : ℤ).fdiv 3 - (j : ℤ).fdiv 3).natAbs
      + ((i : ℤ).emod 3 - (j : ℤ).emod 3).natAbs = 1) :
    manhattan_heuristica l ≤ manhattan_heuristica (swapNat l i j) + 1 := by
  have hti : nth (swapNat l i j) i = nth l j := nth_swapNat_fst (by omega) (Ne.symm hij)
  have htj : nth (swapNat l i j) j = nth l i := nth_swapNat_snd (by omega)
  have hto : ∀ p, p ≠ i → p ≠ j → nth (swapNat l i j) p = nth l p := fun p hpi hpj =>
    nth_swapNat_other (Ne.symm hpi) (Ne.symm hpj)
  rw [manhattan_eq_sum l, manhattan_eq_sum (swapNat l i j)]
  rw [sum_split_two _ hi hj hij, sum_split_two _ hi hj hij]
  have hcong : ∑ p ∈ ((Finset.range 9).erase i).erase j,
        (if nth (swapNat l i j) p ≠ '_' then
          (((objetivo.indexOf (nth (swapNat l i j) p) : ℕ) : ℤ).fdiv 3
            - (p : ℤ).fdiv 3).natAbs +
          (((objetivo.indexOf (nth (swapNat l i j) p) : ℕ) : ℤ).emod 3
            - (p : ℤ).emod 3).natAbs
        else 0)
      = ∑ p ∈ ((Finset.range 9).erase i).erase j,
        (if nth l p ≠ '_' then
          (((objetivo.indexOf (nth l p) : ℕ) : ℤ).fdiv 3 - (p : ℤ).fdiv 3).natAbs +
          (((objetivo.indexOf (nth l p) : ℕ) : ℤ).emod 3 - (p : ℤ).emod 3).natAbs
        else 0) := by
    apply Finset.sum_congr rfl
    intro p hp
    have h1 := Finset.mem_erase.mp hp
    have h2 := Finset.mem_erase.mp h1.2
    rw [hto p h2.1 h1.1]
  rw [hcong]
  have h1 : (if nth l i ≠ '_' then
      (((objetivo.indexOf (nth l i) : ℕ) : ℤ).fdiv 3 - (i : ℤ).fdiv 3).natAbs +
      (((objetivo.indexOf (nth l i) : ℕ) : ℤ).emod 3 - (i : ℤ).emod 3).natAbs
      else 0) = 0 := by
    rw [hblank]
    simp
  have h2 : (if nth (swapNat l i j) j ≠ '_' then
      (((objetivo.indexOf (nth (swapNat l i j) j) : ℕ) : ℤ).fdiv 3
        - (j : ℤ).fdiv 3).natAbs +
      (((objetivo.indexOf (nth (swapNat l i j) j) : ℕ) : ℤ).emod 3
        - (j : ℤ).emod 3).natAbs
      else 0) = 0 := by
    rw [htj, hblank]
    simp
  have h3 : (if nth l j ≠ '_' then
      (((objetivo.indexOf (nth l j) : ℕ) : ℤ).fdiv 3 - (j : ℤ).fdiv 3).natAbs +
      (((objetivo.indexOf (nth l j) : ℕ) : ℤ).emod 3 - (j : ℤ).emod 3).natAbs
      else 0)
      = (((objetivo.indexOf (nth l j) : ℕ) : ℤ).fdiv 3 - (j : ℤ).fdiv 3).natAbs +
        (((objetivo.indexOf (nth l j) : ℕ) : ℤ).emod 3 - (j : ℤ).emod 3).natAbs :=
    if_pos hjb
  have h4 : (if nth (swapNat l i j) i ≠ '_' then
      (((objetivo.indexOf (nth (swapNat l i j) i) : ℕ) : ℤ).fdiv 3
        - (i : ℤ).fdiv 3).natAbs +
      (((objetivo.indexOf (nth (swapNat l i j) i) : ℕ) : ℤ).emod 3
        - (i : ℤ).emod 3).natAbs
      else 0)
      = (((objetivo.indexOf (nth l j) : ℕ) : ℤ).fdiv 3 - (i : ℤ).fdiv 3).natAbs +
        (((objetivo.indexOf (nth l j) : ℕ) : ℤ).emod 3 - (i : ℤ).emod 3).natAbs := by
    rw [hti]
    exact if_pos hjb
  rw [h1, h2, h3, h4]
  have htri := mdist_triangle_adj (objetivo.indexOf (nth l j)) i j hadj
  omega

theorem hamming_consistent {l : List Char} (hl : BemFormado l) {p : String × List Char}
    (hp : p ∈ sucessor l) :
    hamming_heuristica l ≤ hamming_heuristica p.2 + 1 := by
  obtain ⟨i, hi, hblank, huniq, heq⟩ := sucessor_bem hl
  have hlen := bemFormado_length hl
  rw [heq] at hp
  rcases mem_listaSuc hp with ⟨hc, rfl⟩ | ⟨hc, rfl⟩ | ⟨hc, rfl⟩ | ⟨hc, rfl⟩
  · exact hamming_swap_le hlen hi (by omega) (by omega) hblank
  · exact hamming_swap_le hlen hi (by omega) (by omega) hblank
  · exact hamming_swap_le hlen hi (by omega) (by omega) hblank
  · exact hamming_swap_le hlen hi (by omega) (by omega) hblank

theorem manhattan_consistent {l : List Char} (hl : BemFormado l) {p : String × List Char}
    (hp : p ∈ sucessor l) :
    manhattan_heuristica l ≤ manhattan_heuristica p.2 + 1 := by
  obtain ⟨i, hi, hblank, huniq, heq⟩ := sucessor_bem hl
  have hlen := bemFormado_length hl
  have hjb : ∀ j, j < 9 → j ≠ i → nth l j ≠ '_' := fun j hj hji hcon => hji (huniq j hj hcon)
  rw [heq] at hp
  rcases mem_listaSuc hp with ⟨hc, rfl⟩ | ⟨hc, rfl⟩ | ⟨hc, rfl⟩ | ⟨hc, rfl⟩
  · refine manhattan_swap_le hlen hi (by omega) (by omega) hblank
      (hjb _ (by omega) (by omega)) ?_
    have e2 : ((i : ℕ) : ℤ).fdiv 3 = ((i : ℕ) : ℤ) / 3 := Int.fdiv_eq_ediv _ (by norm_num)
    have e3 : (((i - 1 : ℕ)) : ℤ).fdiv 3 = (((i - 1 : ℕ)) : ℤ) / 3 :=
      Int.fdiv_eq_ediv _ (by norm_num)
    have m2 : ((i : ℕ) : ℤ).emod 3 = ((i : ℕ) : ℤ) % 3 := rfl
    have m3 : (((i - 1 : ℕ)) : ℤ).emod 3 = (((i - 1 : ℕ)) : ℤ) % 3 := rfl
    rw [e2, e3, m2, m3]
    omega
  · refine manhattan_swap_le hlen hi (by omega) (by omega) hblank
      (hjb _ (by omega) (by omega)) ?_
    have e2 : ((i : ℕ) : ℤ).fdiv 3 = ((i : ℕ) : ℤ) / 3 := Int.fdiv_eq_ediv _ (by norm_num)
    have e3 : (((i + 1 : ℕ)) : ℤ).fdiv 3 = (((i + 1 : ℕ)) : ℤ) / 3 :=
      Int.fdiv_eq_ediv _ (by norm_num)
    have m2 : ((i : ℕ) : ℤ).emod 3 = ((i : ℕ) : ℤ) % 3 := rfl
    have m3 : (((i + 1 : ℕ)) : ℤ).emod 3 = (((i + 1 : ℕ)) : ℤ) % 3 := rfl
    rw [e2, e3, m2, m3]
    omega
  · refine manhattan_swap_le hlen hi (by omega) (by omega) hblank
      (hjb _ (by omega) (by omega)) ?_
    have e2 : ((i : ℕ) : ℤ).fdiv 3 = ((i : ℕ) : ℤ) / 3 := Int.fdiv_eq_ediv _ (by norm_num)
    have e3 : (((i - 3 : ℕ)) : ℤ).fdiv 3 = (((i - 3 : ℕ)) : ℤ) / 3 :=
      Int.fdiv_eq_ediv _ (by norm_num)
    have m2 : ((i : ℕ) : ℤ).emod 3 = ((i : ℕ) : ℤ) % 3 := rfl
    have m3 : (((i - 3 : ℕ)) : ℤ).emod 3 = (((i - 3 : ℕ)) : ℤ) % 3 := rfl
    rw [e2, e3, m2, m3]
    omega
  · refine manhattan_swap_le hlen hi (by omega) (by omega) hblank
      (hjb _ (by omega) (by omega)) ?_
    have e2 : ((i : ℕ) : ℤ).fdiv 3 = ((i : ℕ) : ℤ) / 3 := Int.fdiv_eq_ediv _ (by norm_num)
    have e3 : (((i + 3 : ℕ)) : ℤ).fdiv 3 = (((i + 3 : ℕ)) : ℤ) / 3 :=
      Int.fdiv_eq_ediv _ (by norm_num)
    have m2 : ((i : ℕ) : ℤ).emod 3 = ((i : ℕ) : ℤ) % 3 := rfl
    have m3 : (((i + 3 : ℕ)) : ℤ).emod 3 = (((i + 3 : ℕ)) : ℤ) % 3 := rfl
    rw [e2, e3, m2, m3]
    omega

/-- Invariant preservation and first-pop optimality for the A* loop: with a
consistent heuristic vanishing at the goal, under the frontier / explored /
shortest-path invariants, whenever the loop returns at all on a solvable
start it returns a path to the goal of minimal length. -/
theorem astarLoop_optimal (h : List Char → ℕ)
    (hcons : ∀ (l : List Char) (p : String × List Char), BemFormado l →
      p ∈ sucessor l → h l ≤ h p.2 + 1)
    (hg0 : h objetivo = 0) :
    ∀ (fuel : ℕ) (F : List (ℕ × Nodo)) (E : List (List Char)) (s : List Char),
      BemFormado s → Solvavel s →
      FrontInv h s F → ExpInv s F E → PathInv s F E → objetivo ∉ E →
      ∀ r, astarLoop h fuel F E = some r →
        ∃ c, r = some c ∧ replay s c = some objetivo ∧ DistEq s objetivo c.length
  | 0, F, E, s, _, _, _, _, _, _, r, hres => by simp [astarLoop] at hres
  | fuel + 1, F, E, s, hbem, hsolv, hFI, hEI, hPI, hGE, r, hres => by
    rw [astarLoop] at hres
    rcases hpop : heappop F with _ | ⟨⟨k, nodo⟩, F1⟩
    · exfalso
      obtain ⟨dg, hdg⟩ := exists_distEq hsolv
      obtain ⟨⟨c0, hc0, hc0len⟩, hdgmin⟩ := hdg
      obtain ⟨i, hile, hiE, hfirst, e, heF, hest, hec⟩ := hPI objetivo c0 hGE hc0
        (fun c2 hc2 => by
          have := hdgmin c2.length ⟨c2, hc2, rfl⟩
          omega)
      rw [heappop_none hpop] at heF
      exact absurd heF (List.not_mem_nil e)
    · rw [hpop] at hres
      have hFne : F ≠ [] := by
        intro hF
        rw [hF] at hpop
        simp [heappop] at hpop
      obtain ⟨rr, rest, hpop2, hperm, hlen2, himpl⟩ := heappop_spec F hFne
      rw [hpop] at hpop2
      have hrk : rr = (k, nodo) := by
        injection hpop2 with h1
        injection h1 with ha hb
        exact ha.symm
      have hrest : rest = F1 := by
        injection hpop2 with h1
        injection h1 with ha hb
        exact hb.symm
      rw [hrk, hrest] at hperm
      rw [hrk, hrest] at himpl
      obtain ⟨hheap, hsane⟩ := hFI
      obtain ⟨hheap1, hminpop⟩ := himpl hheap
      have hpopF : (k, nodo) ∈ F := hperm.mem_iff.mpr (by simp)
      have hsaneN : NodoSane s nodo := (hsane _ hpopF).1
      have hkey : k = nodo.custo + h nodo.estado := (hsane _ hpopF).2.1
      have hbemN : BemFormado nodo.estado := (hsane _ hpopF).2.2
      have hopt : nodo.estado ∉ E → DistEq s nodo.estado nodo.custo := by
        intro hzE
        have halc : Alcanca s nodo.estado := ⟨reconstruir nodo, hsaneN.1⟩
        obtain ⟨dz, hdz⟩ := exists_distEq halc
        obtain ⟨⟨c0, hc0, hc0len⟩, hdzmin⟩ := id hdz
        have hmin0 : ∀ c2, replay s c2 = some nodo.estado → c0.length ≤ c2.length := by
          intro c2 hc2
          have := hdzmin c2.length ⟨c2, hc2, rfl⟩
          omega
        obtain ⟨i, hile, hiE, hfirst, e1, he1F, he1st, he1c⟩ :=
          hPI nodo.estado c0 hzE hc0 hmin0
        have htel : h (pathState s c0 i) ≤ h nodo.estado + (c0.length - i) := by
          have hdrop := replay_drop_eq hc0 i
          have hh := consistent_replay h hcons (c0.drop i) (pathState s c0 i)
            nodo.estado (pathState_bem hbem hc0 i) hdrop
          rw [List.length_drop] at hh
          exact hh
        have hle := hminpop e1 he1F
        have hk1 : k ≤ e1.1 := by
          rcases hle with hlt | ⟨heq2, _⟩
          · exact le_of_lt hlt
          · exact le_of_eq heq2
        have h1 : e1.1 = e1.2.custo + h e1.2.estado := (hsane e1 he1F).2.1
        rw [he1st] at h1
        have hcustole : nodo.custo ≤ dz := by
          rw [hc0len] at htel hile
          omega
        have hge : dz ≤ nodo.custo := by
          have hh := hdzmin (reconstruir nodo).length ⟨reconstruir nodo, hsaneN.1, rfl⟩
          rw [hsaneN.2] at hh
          exact hh
        have hdzc : dz = nodo.custo := by omega
        rw [← hdzc]
        exact hdz
      have hres2 : (if nodo.estado = objetivo then some (some (reconstruir nodo))
          else astarLoop h fuel ((expande nodo).foldl (fun fr ns =>
            if ns.estado ∈ List.insert nodo.estado E then fr
            else heappush fr (ns.custo + h ns.estado, ns)) F1)
            (List.insert nodo.estado E)) = some r := hres
      by_cases hgoal : nodo.estado = objetivo
      · rw [if_pos hgoal] at hres2
        have hrval : r = some (reconstruir nodo) := by
          injection hres2 with h1
          exact h1.symm
        refine ⟨reconstruir nodo, hrval, ?_, ?_⟩
        · rw [hsaneN.1, hgoal]
        · rw [hsaneN.2]
          have hzE : nodo.estado ∉ E := by
            rw [hgoal]
            exact hGE
          have hd := hopt hzE
          rw [← hgoal]
          exact hd
      · rw [if_neg hgoal] at hres2
        set E1 := List.insert nodo.estado E with hE1
        set F2 := (expande nodo).foldl (fun fr ns =>
          if ns.estado ∈ E1 then fr
          else heappush fr (ns.custo + h ns.estado, ns)) F1 with hF2
        have hzE_def : ∀ t, t ∈ E1 ↔ t = nodo.estado ∨ t ∈ E := by
          intro t
          rw [hE1]
          exact List.mem_insert_iff
        have hF2mem : ∀ e, e ∈ F2 →
            e ∈ F1 ∨ ∃ ns ∈ expande nodo, e = (ns.custo + h ns.estado, ns) := by
          intro e he
          rw [hF2] at he
          rcases foldl_heappush_mem h E1 (expande nodo) F1 e he with h1 | ⟨ns, hns, he2⟩
          · exact Or.inl h1
          · exact Or.inr ⟨ns, hns, he2⟩
        have hF1sub : ∀ e, e ∈ F1 → e ∈ F := fun e he => hperm.mem_iff.mpr (by simp [he])
        have hkeep : ∀ e, e ∈ F1 → e ∈ F2 := by
          intro e he
          rw [hF2]
          exact foldl_heappush_keep h E1 (expande nodo) F1 e he
        have hcover : ∀ ns ∈ expande nodo, ns.estado ∉ E1 →
            (ns.custo + h ns.estado, ns) ∈ F2 := by
          intro ns hns hnsE
          rw [hF2]
          exact foldl_heappush_covers h E1 (expande nodo) F1 ns hns hnsE
        have hFI2 : FrontInv h s F2 := by
          constructor
          · rw [hF2]
            exact foldl_heappush_heapInv h E1 (expande nodo) F1 hheap1
          · intro e he
            rcases hF2mem e he with h1 | ⟨ns, hns, rfl⟩
            · exact hsane e (hF1sub e h1)
            · obtain ⟨p, hp, hns_eq⟩ := expande_mem_eq hns
              refine ⟨nodoSane_filho hsaneN hns, rfl, ?_⟩
              rw [hns_eq]
              exact sucessor_mem_bem hbemN hp
        have hGE2 : objetivo ∉ E1 := by
          intro hmem
          rcases (hzE_def objetivo).mp hmem with h1 | h2
          · exact hgoal h1.symm
          · exact hGE h2
        by_cases hzE : nodo.estado ∈ E
        · have hE1E : E1 = E := by
            rw [hE1]
            exact List.insert_of_mem hzE
          have hEI2 : ExpInv s F2 E1 := by
            rw [hE1E]
            intro z hz
            obtain ⟨d, hd, hsucc⟩ := hEI z hz
            refine ⟨d, hd, ?_⟩
            intro p hp hpE
            obtain ⟨e, heF, hest, hec⟩ := hsucc p hp hpE
            refine ⟨e, ?_, hest, hec⟩
            have hne : e ≠ (k, nodo) := by
              intro heq
              rw [heq] at hest
              exact hpE (by rw [← hest]; exact hzE)
            rcases List.mem_cons.mp (hperm.mem_iff.mp heF) with h1 | h2
            · exact absurd h1 hne
            · exact hkeep e h2
          have hPI2 : PathInv s F2 E1 := by
            rw [hE1E]
            intro z c hzE2 hc hmin2
            obtain ⟨i, hile, hiE, hfirst, e, heF, hest, hec⟩ := hPI z c hzE2 hc hmin2
            refine ⟨i, hile, hiE, hfirst, e, ?_, hest, hec⟩
            have hne : e ≠ (k, nodo) := by
              intro heq
              rw [heq] at hest
              exact hiE (by rw [← hest]; exact hzE)
            rcases List.mem_cons.mp (hperm.mem_iff.mp heF) with h1 | h2
            · exact absurd h1 hne
            · exact hkeep e h2
          exact astarLoop_optimal h hcons hg0 fuel F2 E1 s hbem hsolv
            hFI2 hEI2 hPI2 hGE2 r hres2
        · have hdopt : DistEq s nodo.estado nodo.custo := hopt hzE
          have hEI2 : ExpInv s F2 E1 := by
            intro z hz
            rcases (hzE_def z).mp hz with rfl | hzold
            · refine ⟨nodo.custo, hdopt, ?_⟩
              intro p hp hpE1
              obtain ⟨c2, hc2, hc2st⟩ :=
                expande_cobre (List.mem_map.mpr ⟨p, hp, rfl⟩)
              obtain ⟨q, hq, hc2eq⟩ := expande_mem_eq hc2
              have hc2custo : c2.custo = nodo.custo + 1 := by
                rw [hc2eq]
                rfl
              refine ⟨(c2.custo + h c2.estado, c2), hcover c2 hc2 ?_, hc2st,
                le_of_eq hc2custo⟩
              rw [hc2st]
              exact hpE1
            · obtain ⟨d, hd, hsucc⟩ := hEI z hzold
              refine ⟨d, hd, ?_⟩
              intro p hp hpE1
              have hpE : p.2 ∉ E := fun hcz => hpE1 ((hzE_def p.2).mpr (Or.inr hcz))
              obtain ⟨e, heF, hest, hec⟩ := hsucc p hp hpE
              refine ⟨e, ?_, hest, hec⟩
              have hne : e ≠ (k, nodo) := by
                intro heq
                rw [heq] at hest
                exact hpE1 ((hzE_def p.2).mpr (Or.inl hest.symm))
              rcases List.mem_cons.mp (hperm.mem_iff.mp heF) with h1 | h2
              · exact absurd h1 hne
              · exact hkeep e h2
          have hPI2 : PathInv s F2 E1 := by
            intro z c hzE2 hc hmin2
            have hzEold : z ∉ E := fun hcz => hzE2 ((hzE_def z).mpr (Or.inr hcz))
            obtain ⟨i, hile, hiE, hfirst, e, heF, hest, hec⟩ := hPI z c hzEold hc hmin2
            by_cases hwi : pathState s c i = nodo.estado
            · have hPex : ∃ j, pathState s c j ∉ E1 :=
                ⟨c.length, by rw [pathState_last hc]; exact hzE2⟩
              have hi2spec : pathState s c (Nat.find hPex) ∉ E1 := Nat.find_spec hPex
              have hi2min : ∀ j, j < Nat.find hPex → pathState s c j ∈ E1 := by
                intro j hj
                exact not_not.mp (Nat.find_min hPex hj)
              have hi2le : Nat.find hPex ≤ c.length :=
                Nat.find_min' hPex (by rw [pathState_last hc]; exact hzE2)
              have hile2 : i < Nat.find hPex := by
                rcases Nat.lt_or_ge i (Nat.find hPex) with hlt | hge
                · exact hlt
                · exfalso
                  rcases Nat.eq_or_lt_of_le hge with heq2 | hlt2
                  · rw [heq2] at hi2spec
                    exact hi2spec ((hzE_def _).mpr (Or.inl hwi))
                  · exact hi2spec ((hzE_def _).mpr (Or.inr (hfirst _ hlt2)))
              have hdist := pathState_distinct hc hmin2
              have hcusto_le : nodo.custo ≤ i := by
                have hpath := replay_take_some hc i
                rw [hwi] at hpath
                have hh := hdopt.2 (c.take i).length ⟨c.take i, hpath, rfl⟩
                rw [List.length_take, Nat.min_eq_left (by omega)] at hh
                exact hh
              have hsucc_le : i + 1 ≤ Nat.find hPex := hile2
              rcases Nat.eq_or_lt_of_le hsucc_le with heq2 | hlt2
              · have histep : i < c.length := by omega
                have hstep := pathState_step hc histep
                have hsmem := aplicar_mem hstep
                rw [hwi] at hsmem
                obtain ⟨c2, hc2, hc2st⟩ :=
                  expande_cobre (List.mem_map.mpr ⟨_, hsmem, rfl⟩)
                obtain ⟨q, hq, hc2eq⟩ := expande_mem_eq hc2
                have hc2custo : c2.custo = nodo.custo + 1 := by
                  rw [hc2eq]
                  rfl
                refine ⟨Nat.find hPex, hi2le, hi2spec, hi2min,
                  (c2.custo + h c2.estado, c2), hcover c2 hc2 ?_, ?_, ?_⟩
                · rw [hc2st, heq2]
                  exact hi2spec
                · show c2.estado = pathState s c (Nat.find hPex)
                  rw [hc2st, heq2]
                · show c2.custo ≤ Nat.find hPex
                  omega
              · have hw_pred_E1 : pathState s c (Nat.find hPex - 1) ∈ E1 :=
                  hi2min _ (by omega)
                have hw_pred_ne : pathState s c (Nat.find hPex - 1) ≠ nodo.estado := by
                  rw [← hwi]
                  exact Ne.symm (hdist i (Nat.find hPex - 1) (by omega) (by omega))
                have hw_pred_E : pathState s c (Nat.find hPex - 1) ∈ E := by
                  rcases (hzE_def _).mp hw_pred_E1 with h1 | h2
                  · exact absurd h1 hw_pred_ne
                  · exact h2
                obtain ⟨d, hd, hsucc⟩ := hEI _ hw_pred_E
                have hdle : d ≤ Nat.find hPex - 1 := by
                  have hpath := replay_take_some hc (Nat.find hPex - 1)
                  have hh := hd.2 (c.take (Nat.find hPex - 1)).length
                    ⟨c.take (Nat.find hPex - 1), hpath, rfl⟩
                  rw [List.length_take, Nat.min_eq_left (by omega)] at hh
                  exact hh
                have histep2 : Nat.find hPex - 1 < c.length := by omega
                have hstep2 := pathState_step hc histep2
                have hsmem2 := aplicar_mem hstep2
                have hidx : Nat.find hPex - 1 + 1 = Nat.find hPex := by omega
                rw [hidx] at hsmem2
                have hwE : pathState s c (Nat.find hPex) ∉ E :=
                  fun hcz => hi2spec ((hzE_def _).mpr (Or.inr hcz))
                obtain ⟨e2, he2F, he2st, he2c⟩ := hsucc _ hsmem2 hwE
                have hne2 : e2 ≠ (k, nodo) := by
                  intro heq3
                  rw [heq3] at he2st
                  exact hi2spec ((hzE_def _).mpr (Or.inl he2st.symm))
                refine ⟨Nat.find hPex, hi2le, hi2spec, hi2min, e2, ?_, he2st,
                  by omega⟩
                rcases List.mem_cons.mp (hperm.mem_iff.mp he2F) with h1 | h2
                · exact absurd h1 hne2
                · exact hkeep e2 h2
            · refine ⟨i, hile, ?_, ?_, e, ?_, hest, hec⟩
              · intro hmem2
                rcases (hzE_def _).mp hmem2 with h1 | h2
                · exact hwi h1
                · exact hiE h2
              · intro j hj
                exact (hzE_def _).mpr (Or.inr (hfirst j hj))
              · have hne : e ≠ (k, nodo) := by
                  intro heq
                  rw [heq] at hest
                  exact hwi hest.symm
                rcases List.mem_cons.mp (hperm.mem_iff.mp heF) with h1 | h2
                · exact absurd h1 hne
                · exact hkeep e h2
          exact astarLoop_optimal h hcons hg0 fuel F2 E1 s hbem hsolv
            hFI2 hEI2 hPI2 hGE2 r hres2

theorem astarBusca_optimal (h : List Char → ℕ)
    (hcons : ∀ (l : List Char) (p : String × List Char), BemFormado l →
      p ∈ sucessor l → h l ≤ h p.2 + 1)
    (hg0 : h objetivo = 0) {s : List Char} (hbem : BemFormado s) (hsolv : Solvavel s) :
    ∃ fuel c, astarBusca h fuel s = some (some c) ∧ replay s c = some objetivo ∧
      DistEq s objetivo c.length := by
  obtain ⟨fuel, r, hr⟩ := astarBusca_term h hbem
  have hroot : heappush [] (h s, Nodo.mk s none none 0) = [(h s, Nodo.mk s none none 0)] :=
    rfl
  have hFI0 : FrontInv h s (heappush [] (h s, Nodo.mk s none none 0)) := by
    rw [hroot]
    constructor
    · intro j hj0 hjlen
      simp at hjlen
      omega
    · intro e he
      have he2 : e = (h s, Nodo.mk s none none 0) := by simpa using he
      rw [he2]
      refine ⟨nodoSane_raiz s, ?_, hbem⟩
      show h s = 0 + h s
      omega
  have hEI0 : ExpInv s (heappush [] (h s, Nodo.mk s none none 0)) [] := by
    intro z hz
    exact absurd hz (List.not_mem_nil z)
  have hPI0 : PathInv s (heappush [] (h s, Nodo.mk s none none 0)) [] := by
    intro z c hzE hc hmin
    refine ⟨0, Nat.zero_le _, List.not_mem_nil _, ?_,
      (h s, Nodo.mk s none none 0), ?_, rfl, Nat.le_refl 0⟩
    · intro j hj
      exact absurd hj (Nat.not_lt_zero j)
    · rw [hroot]
      simp
  obtain ⟨c, hrc, hrep, hdist⟩ := astarLoop_optimal h hcons hg0 fuel
    (heappush [] (h s, Nodo.mk s none none 0)) [] s hbem hsolv
    hFI0 hEI0 hPI0 (List.not_mem_nil _) r hr
  refine ⟨fuel, c, ?_, hrep, hdist⟩
  rw [← hrc]
  exact hr

/-- Claim C1: for every solvable well-formed start state, `astar_hamming`
and `astar_manhattan` (run with sufficient loop fuel) each return a move
sequence of minimal length — its length is the true shortest-path distance
to the goal `"12345678_"` — even though children already in the explored set
are never re-opened: both heuristics are consistent across one move and
vanish at the goal, so the first pop of any state carries an optimal-cost
node. -/
theorem claim_C1_astar_optimal (s : List Char) (hbem : BemFormado s)
    (hsolv : Solvavel s) :
    (∃ fuel c, astar_hamming fuel s = some (some c) ∧ replay s c = some objetivo ∧
      DistEq s objetivo c.length) ∧
    (∃ fuel c, astar_manhattan fuel s = some (some c) ∧ replay s c = some objetivo ∧
      DistEq s objetivo c.length) :=
  ⟨astarBusca_optimal hamming_heuristica (fun _ _ hl hp => hamming_consistent hl hp)
      (by decide) hbem hsolv,
    astarBusca_optimal manhattan_heuristica (fun _ _ hl hp => manhattan_consistent hl hp)
      (by decide) hbem hsolv⟩

/-- Claim C1, witness: at the goal state (well formed, trivially solvable)
both searches return the empty path, whose length `0` is the shortest-path
distance. -/
theorem claim_C1_witness :
    BemFormado objetivo ∧ Solvavel objetivo ∧
    ((∃ fuel c, astar_hamming fuel objetivo = some (some c) ∧
        replay objetivo c = some objetivo ∧ DistEq objetivo objetivo c.length) ∧
      (∃ fuel c, astar_manhattan fuel objetivo = some (some c) ∧
        replay objetivo c = some objetivo ∧ DistEq objetivo objetivo c.length)) :=
  ⟨by decide, ⟨[], rfl⟩, claim_C1_astar_optimal objetivo (by decide) ⟨[], rfl⟩⟩
